import Mathlib

/-!
# Verification of the `am-decisiontree` decision-tree library

This file gives a shallow embedding, in Lean 4, of the core of the
TypeScript decision-tree library (decision tree construction, split search,
cost-complexity pruning, prediction, (de)serialization, impurity criteria,
and the random-forest probability aggregation), together with theorems
settling the specification claims about it.

Modelling conventions, chosen once and used throughout:

* JavaScript numbers are modelled as rationals (`ℚ`), so all arithmetic is
  exact.  The entropy criterion is real-valued (it uses `log2`) and is
  modelled over `ℝ`.
* A JavaScript value that may be a number or a string (feature values,
  categories, class labels) is modelled by `JVal`.  A missing feature value
  (`null`) is modelled by `Option JVal` with `none` as the missing marker.
* JavaScript `Record` objects keyed by `String(v)` are modelled as
  insertion-ordered association lists with string keys; as in JS, a number
  and a string can collide on the same key (e.g. `1` and `"1"`).
* A JavaScript `Set` is modelled as a duplicate-free list in insertion
  order; membership is decidable equality (JS `SameValueZero` never
  coerces a number to a string, matching `JVal` equality).
* `Number(v)` coercion of a string is modelled as `0`.  In JS a
  non-numeric string coerces to `NaN`; rationals cannot represent `NaN`,
  so the numeric-split development describes numeric columns holding
  actual numbers (the library's documented use).  All concrete inputs
  used below keep numbers in numerical columns, where the two agree.
* Code that throws is modelled with `Option`, `none` meaning an exception.
* `String.localeCompare` ordering is modelled as code-unit ordering; the
  concrete label sets used below ("A" < "B") are ordered identically by
  both.  JS `Array.prototype.sort` is stable, modelled by the stable
  `List.insertionSort`.
* Feature subsampling (`maxFeaturesForSplit`) and bootstrap resampling
  draw on `Math.random`; the model fixes their deterministic defaults
  (`maxFeaturesForSplit = null`: all features considered) resp. the
  deterministic `bootstrap: false` configuration for forests.
-/

namespace DTree

/-- A JavaScript primitive that can appear as a (non-missing) feature
value, a category, or a class label: a number or a string. -/
inductive JVal where
  | num (q : ℚ)
  | str (s : String)
deriving DecidableEq, Repr

/-- JS property-key coercion `String(v)`.  Object keys are strings, so a
numeric label and a string label can share a key (e.g. `1` and `"1"`),
exactly as in the source's `counts[label]` updates. -/
def JVal.key : JVal → String
  | .num q => toString q
  | .str s => s

/-- A feature value: `none` models the missing marker `null`. -/
abbrev FeatVal := Option JVal

/-- JS `Number(v)` coercion applied to a present feature value.  Strings
are modelled as coercing to `0` (see the file header). -/
def toNumber : JVal → ℚ
  | .num q => q
  | .str _ => 0

/-- First-occurrence deduplication, the behaviour of `[...new Set(xs)]`:
keeps the first occurrence of each element, in encounter order. -/
def dedupFirst {α : Type} [DecidableEq α] : List α → List α
  | [] => []
  | a :: l => a :: (dedupFirst l).filter (fun b => b ≠ a)

/-- One step of the JS record update `counts[label] = (counts[label] || 0) + 1`
on an insertion-ordered record. -/
def bumpCount : List (String × ℕ) → String → List (String × ℕ)
  | [], k => [(k, 1)]
  | (k', c) :: t, k => if k' = k then (k', c + 1) :: t else (k', c) :: bumpCount t k

/-- The `counts` record built by iterating over the labels in order,
keyed by the string coercion of each label. -/
def countsList (y : List JVal) : List (String × ℕ) :=
  y.foldl (fun l v => bumpCount l v.key) []

/-- `calculateGiniImpurity` (src/criteria/gini_impurity.ts): `1 − Σ p²`
over the label frequencies of the counts record; `0` for empty input. -/
def calculateGiniImpurity (y : List JVal) : ℚ :=
  if y.length = 0 then 0
  else 1 - ((countsList y).map
    (fun kc => ((kc.2 : ℚ) / (y.length : ℚ)) * ((kc.2 : ℚ) / (y.length : ℚ)))).sum

/-- `calculateEntropy` (src/criteria/entropy.ts): `−Σ p·log2 p` over the
label frequencies, with zero-probability terms contributing 0; `0` for
empty input.  Real-valued because of `log2`. -/
noncomputable def calculateEntropy (y : List JVal) : ℝ :=
  if y.length = 0 then 0
  else ((countsList y).map
    (fun kc =>
      if 0 < (kc.2 : ℝ) / (y.length : ℝ) then
        -(((kc.2 : ℝ) / (y.length : ℝ)) * Real.logb 2 ((kc.2 : ℝ) / (y.length : ℝ)))
      else 0)).sum

/-- `calculateMSE` (src/criteria/mse_criterion.ts): mean squared deviation
from the sample mean; `0` for empty input. -/
def calculateMSE (y : List ℚ) : ℚ :=
  if y.length = 0 then 0
  else
    let mean := y.sum / (y.length : ℚ)
    (y.map (fun v => (v - mean) * (v - mean))).sum / (y.length : ℚ)

/-- `calculateMAE` (src/criteria/mae_criterion.ts): mean absolute deviation
from the sample mean; `0` for empty input. -/
def calculateMAE (y : List ℚ) : ℚ :=
  if y.length = 0 then 0
  else
    let mean := y.sum / (y.length : ℚ)
    (y.map (fun v => |v - mean|)).sum / (y.length : ℚ)

/-! ### The tree node (src/node.ts)

The TS `Node` class has ten mutable, mostly-optional fields.  The model
mirrors the field list exactly; `splitCategories` (a JS `Set`) is a
duplicate-free insertion-ordered list. -/

inductive Node (P : Type) : Type where
  | mk (featureIndex : Option ℕ) (threshold : Option ℚ)
      (splitCategories : Option (List JVal)) (value : Option P)
      (impurity : Option ℚ) (leftChild rightChild : Option (Node P))
      (samples : ℕ) (isLeaf : Bool) (potentialLeafValue : Option P)

def Node.featureIndex {P : Type} : Node P → Option ℕ
  | .mk f _ _ _ _ _ _ _ _ _ => f

def Node.threshold {P : Type} : Node P → Option ℚ
  | .mk _ t _ _ _ _ _ _ _ _ => t

def Node.splitCategories {P : Type} : Node P → Option (List JVal)
  | .mk _ _ sc _ _ _ _ _ _ _ => sc

def Node.value {P : Type} : Node P → Option P
  | .mk _ _ _ v _ _ _ _ _ _ => v

def Node.impurity {P : Type} : Node P → Option ℚ
  | .mk _ _ _ _ i _ _ _ _ _ => i

def Node.leftChild {P : Type} : Node P → Option (Node P)
  | .mk _ _ _ _ _ l _ _ _ _ => l

def Node.rightChild {P : Type} : Node P → Option (Node P)
  | .mk _ _ _ _ _ _ r _ _ _ => r

def Node.samples {P : Type} : Node P → ℕ
  | .mk _ _ _ _ _ _ _ s _ _ => s

def Node.isLeaf {P : Type} : Node P → Bool
  | .mk _ _ _ _ _ _ _ _ b _ => b

def Node.potentialLeafValue {P : Type} : Node P → Option P
  | .mk _ _ _ _ _ _ _ _ _ p => p

/-- `BaseDecisionTree._predictSample`: route one sample down the tree.
`none` models a thrown error.  The branch order follows the source: leaf
or explicit value first, then missing `featureIndex`, the bounds check,
the missing-value strategy (larger-trained child, tie to the left),
categorical membership, numeric threshold, and the final fallback. -/
def predictSample {P : Type} (sample : List FeatVal) : Node P → Option P
  | .mk f t sc v _ l r _ leaf plv =>
    if leaf || v.isSome then
      match v with
      | some v0 => some v0
      | none => plv
    else
      match f with
      | none => plv
      | some fi =>
        if sample.length ≤ fi then none
        else
          match sample.getD fi none with
          | none =>
            match l, r with
            | some ln, some rn =>
              if rn.samples < ln.samples then predictSample sample ln
              else if ln.samples < rn.samples then predictSample sample rn
              else predictSample sample ln
            | _, _ => plv
          | some fv =>
            match sc with
            | some cats =>
              match l, r with
              | some ln, some rn =>
                if fv ∈ cats then predictSample sample ln
                else predictSample sample rn
              | _, _ => none
            | none =>
              match t with
              | some th =>
                match l, r with
                | some ln, some rn =>
                  if toNumber fv ≤ th then predictSample sample ln
                  else predictSample sample rn
                | _, _ => none
              | none => plv

/-! ### Node (de)serialization (`serializeNode` / `deserializeNode`)

The wire form of a node: identical shape, but the categorical split set
has been converted to an ordered list (`Array.from(set)`), which is how
the JSON object graph represents it.  JSON round-trips finite numbers,
booleans, strings and plain objects exactly, so `toJSON`/`fromJSON` are
modelled as producing and consuming this object graph. -/

inductive SNode (P : Type) : Type where
  | mk (featureIndex : Option ℕ) (threshold : Option ℚ)
      (splitCategories : Option (List JVal)) (value : Option P)
      (impurity : Option ℚ) (leftChild rightChild : Option (SNode P))
      (samples : ℕ) (isLeaf : Bool) (potentialLeafValue : Option P)

def serializeNode {P : Type} : Node P → SNode P
  | .mk f t sc v imp l r s leaf plv =>
    .mk f t sc v imp
      (match l with
       | some ln => some (serializeNode ln)
       | none => none)
      (match r with
       | some rn => some (serializeNode rn)
       | none => none)
      s leaf plv

def deserializeNode {P : Type} : SNode P → Node P
  | .mk f t sc v imp l r s leaf plv =>
    .mk f t sc v imp
      (match l with
       | some ln => some (deserializeNode ln)
       | none => none)
      (match r with
       | some rn => some (deserializeNode rn)
       | none => none)
      s leaf plv

/-! ### Fitted models and the persisted JSON object graph -/

/-- The splitting criteria (`Criterion` in src/decision_tree.ts). -/
inductive Criterion where
  | gini | entropy | mse | mae
deriving DecidableEq, Repr

/-- A declared feature type. -/
inductive FeatType where
  | numerical | categorical
deriving DecidableEq, Repr

/-- A classification leaf payload: the label-keyed probability record. -/
abbrev ProbMap := List (String × ℚ)

/-- The fields of a fitted `DecisionTreeClassifier` that the modelled
operations read.  `maxDepth = none` models both `Infinity` (never set) and
the `null` it becomes through a JSON round-trip; prediction never reads
it. -/
structure ClassifierModel where
  root : Option (Node ProbMap)
  criterion : Criterion
  maxDepth : Option ℕ
  minSamplesSplit : ℕ
  minSamplesLeaf : ℕ
  minImpurityDecrease : ℚ
  nFeatures : Option ℕ
  featureTypes : Option (List FeatType)
  uniqueClasses : Option (List JVal)
  ccpAlpha : ℚ
  featureImportances : Option (List ℚ)

/-- The fields of a fitted `DecisionTreeRegressor`. -/
structure RegressorModel where
  root : Option (Node ℚ)
  criterion : Criterion
  maxDepth : Option ℕ
  minSamplesSplit : ℕ
  minSamplesLeaf : ℕ
  minImpurityDecrease : ℚ
  nFeatures : Option ℕ
  featureTypes : Option (List FeatType)
  ccpAlpha : ℚ
  featureImportances : Option (List ℚ)

/-- JS `parseFloat` on a record key, modelled for integral numerals (the
only numeric keys this development produces); non-numeral keys give
`none` (`NaN`). -/
def jsParseFloat (s : String) : Option ℚ :=
  (s.toInt?).map (fun i => (i : ℚ))

/-- The label coercion inside `DecisionTreeClassifier.predict`: when the
first unique class is numeric, a record key parsing as a number is
converted back to a numeric label. -/
def coerceCls (uniq : Option (List JVal)) (k : String) : JVal :=
  match uniq with
  | some (JVal.num _ :: _) =>
    match jsParseFloat k with
    | some q => JVal.num q
    | none => JVal.str k
  | _ => JVal.str k

/-- The arg-max scan of `DecisionTreeClassifier.predict` over one
probability record: `maxProb` starts at `-1`, strict `>` keeps the first
maximal entry, and the initial prediction is the first unique class (or
the record's first key).  The result is `none` exactly when both the
record and the class list are empty (JS would yield `undefined`). -/
def pickLabel (uniq : Option (List JVal)) (pm : ProbMap) : Option JVal :=
  let base : Option JVal :=
    match uniq with
    | some (c :: _) => some c
    | _ => pm.head?.map (fun kc => JVal.str kc.1)
  (pm.foldl
    (fun (acc : ℚ × Option JVal) kc =>
      if acc.1 < kc.2 then (kc.2, some (coerceCls uniq kc.1)) else acc)
    (-1, base)).2

/-- Record lookup with JS `|| 0` defaulting. -/
def lookupD (pm : ProbMap) (k : String) : ℚ :=
  match pm.lookup k with
  | some v => v
  | none => 0

/-- `DecisionTreeClassifier.predict`. -/
def ClassifierModel.predict (m : ClassifierModel) (X : List (List FeatVal)) :
    Option (List (Option JVal)) :=
  match m.root with
  | none => none
  | some root => do
    let probas ← X.mapM (fun s => predictSample s root)
    pure (probas.map (fun pm => pickLabel m.uniqueClasses pm))

/-- `DecisionTreeClassifier.predictProba`: one probability row per sample,
columns ordered by the stored unique-class list, absent classes read as
`0`. -/
def ClassifierModel.predictProba (m : ClassifierModel) (X : List (List FeatVal)) :
    Option (List (List ℚ)) :=
  match m.root with
  | none => none
  | some root =>
    match m.uniqueClasses with
    | none => none
    | some uniq => do
      let probas ← X.mapM (fun s => predictSample s root)
      pure (probas.map (fun pm => uniq.map (fun c => lookupD pm c.key)))

/-- `DecisionTreeRegressor.predict`. -/
def RegressorModel.predict (m : RegressorModel) (X : List (List FeatVal)) :
    Option (List ℚ) :=
  match m.root with
  | none => none
  | some root => X.mapM (fun s => predictSample s root)

/-- The persisted object graph written by `DecisionTreeClassifier.toJSON`. -/
structure ClassifierJson where
  typeTag : String
  root : SNode ProbMap
  criterion : Criterion
  maxDepth : Option ℕ
  minSamplesSplit : ℕ
  minSamplesLeaf : ℕ
  minImpurityDecrease : ℚ
  nFeatures : Option ℕ
  featureTypes : Option (List FeatType)
  uniqueClasses : Option (List JVal)
  ccpAlpha : ℚ

/-- The persisted object graph written by `DecisionTreeRegressor.toJSON`. -/
structure RegressorJson where
  typeTag : String
  root : SNode ℚ
  criterion : Criterion
  maxDepth : Option ℕ
  minSamplesSplit : ℕ
  minSamplesLeaf : ℕ
  minImpurityDecrease : ℚ
  nFeatures : Option ℕ
  featureTypes : Option (List FeatType)
  ccpAlpha : ℚ

/-- The classifier constructor silently coerces the regression criteria to
Gini. -/
def classifierCtorCriterion : Criterion → Criterion
  | .mse => .gini
  | .mae => .gini
  | c => c

/-- The regressor constructor silently coerces the classification criteria
to MSE. -/
def regressorCtorCriterion : Criterion → Criterion
  | .gini => .mse
  | .entropy => .mse
  | c => c

/-- `DecisionTreeClassifier.toJSON` (throws when unfitted). -/
def ClassifierModel.toJSON (m : ClassifierModel) : Option ClassifierJson :=
  match m.root with
  | none => none
  | some r => some
    { typeTag := "classifier"
      root := serializeNode r
      criterion := m.criterion
      maxDepth := m.maxDepth
      minSamplesSplit := m.minSamplesSplit
      minSamplesLeaf := m.minSamplesLeaf
      minImpurityDecrease := m.minImpurityDecrease
      nFeatures := m.nFeatures
      featureTypes := m.featureTypes
      uniqueClasses := m.uniqueClasses
      ccpAlpha := m.ccpAlpha }

/-- `DecisionTreeClassifier.fromJSON` (static): validates the type tag,
rebuilds the model through the constructor (criterion coercion included)
and deserializes the node graph.  Feature importances are not persisted. -/
def classifierFromJSON (j : ClassifierJson) : Option ClassifierModel :=
  if j.typeTag = "classifier" then some
    { root := some (deserializeNode j.root)
      criterion := classifierCtorCriterion j.criterion
      maxDepth := j.maxDepth
      minSamplesSplit := j.minSamplesSplit
      minSamplesLeaf := j.minSamplesLeaf
      minImpurityDecrease := j.minImpurityDecrease
      nFeatures := j.nFeatures
      featureTypes := j.featureTypes
      uniqueClasses := j.uniqueClasses
      ccpAlpha := j.ccpAlpha
      featureImportances := none }
  else none

/-- `DecisionTreeRegressor.toJSON`. -/
def RegressorModel.toJSON (m : RegressorModel) : Option RegressorJson :=
  match m.root with
  | none => none
  | some r => some
    { typeTag := "regressor"
      root := serializeNode r
      criterion := m.criterion
      maxDepth := m.maxDepth
      minSamplesSplit := m.minSamplesSplit
      minSamplesLeaf := m.minSamplesLeaf
      minImpurityDecrease := m.minImpurityDecrease
      nFeatures := m.nFeatures
      featureTypes := m.featureTypes
      ccpAlpha := m.ccpAlpha }

/-- `DecisionTreeRegressor.fromJSON` (static). -/
def regressorFromJSON (j : RegressorJson) : Option RegressorModel :=
  if j.typeTag = "regressor" then some
    { root := some (deserializeNode j.root)
      criterion := regressorCtorCriterion j.criterion
      maxDepth := j.maxDepth
      minSamplesSplit := j.minSamplesSplit
      minSamplesLeaf := j.minSamplesLeaf
      minImpurityDecrease := j.minImpurityDecrease
      nFeatures := j.nFeatures
      featureTypes := j.featureTypes
      ccpAlpha := j.ccpAlpha
      featureImportances := none }
  else none

/-! ### Hyperparameters and the task bundle

The abstract class `BaseDecisionTree` dispatches on three virtual methods
(`calculateImpurity`, `calculateLeafValue`) and — inside the categorical
branch of `_findBestSplit` — on `instanceof` checks.  The model bundles
these into a `Task` record; the classifier and regressor instantiate it.
Feature subsampling (`maxFeaturesForSplit`) is modelled at its
deterministic default `null`: all features are considered. -/

structure Params where
  maxDepth : Option ℕ
  minSamplesSplit : ℕ
  minSamplesLeaf : ℕ
  minImpurityDecrease : ℚ
  featureTypes : Option (List FeatType)
  ccpAlpha : ℚ

/-- The defaulted parameters of the `BaseDecisionTree` constructor. -/
def defaultParams : Params :=
  { maxDepth := none, minSamplesSplit := 2, minSamplesLeaf := 1
    minImpurityDecrease := 0, featureTypes := none, ccpAlpha := 0 }

/-- The task-specific operations used by the shared builder.  `dflt` is
only used for out-of-range index reads, which cannot occur for indices
produced by the split search.  `firstOk` models the classifier's
`getFirstUniqueClass() !== undefined` check (the regressor always
passes). -/
structure Task (T P : Type) where
  impurity : List T → ℚ
  leafValue : List T → P
  firstOk : Bool
  catMetric : List T → ℚ
  dflt : T

/-- Partition the samples of a node by presence of feature `fd`:
the non-missing triples `(value, target, originalIndex)` in sample order,
and the original indices of the missing-valued samples. -/
def featureColumn {T : Type} (X : List (List FeatVal)) (y : List T) (fd : ℕ) :
    List (JVal × T × ℕ) × List ℕ :=
  let rows := (X.zip y).enum
  (rows.filterMap (fun r =>
      match (r.2.1.getD fd none) with
      | some v => some (v, r.2.2, r.1)
      | none => none),
   (rows.filter (fun r => (r.2.1.getD fd none).isNone)).map (fun r => r.1))

/-- One admissible candidate split of a feature's non-missing samples. -/
structure Cand where
  threshold : Option ℚ
  cats : Option (List JVal)
  lIdx : List ℕ
  rIdx : List ℕ
  gain : ℚ

/-- Impurity gain of a candidate partition, against the impurity of the
feature's non-missing subset. -/
def candGain {T P : Type} (tk : Task T P) (nm L R : List (JVal × T × ℕ)) : ℚ :=
  tk.impurity (nm.map (fun d => d.2.1))
    - (((L.length : ℚ) / (nm.length : ℚ)) * tk.impurity (L.map (fun d => d.2.1))
       + ((R.length : ℚ) / (nm.length : ℚ)) * tk.impurity (R.map (fun d => d.2.1)))

/-- Candidate splits of a numerical feature: midpoints of adjacent
distinct sorted values, each partitioning by `value ≤ threshold`,
filtered by `minSamplesLeaf`. -/
def numericCands {T P : Type} (tk : Task T P) (msl : ℕ)
    (nm : List (JVal × T × ℕ)) : List Cand :=
  let uniq := List.insertionSort (fun a b => a ≤ b)
    (dedupFirst (nm.map (fun d => toNumber d.1)))
  (uniq.zip uniq.tail).filterMap (fun ab =>
    let th := (ab.1 + ab.2) / 2
    let L := nm.filter (fun d => toNumber d.1 ≤ th)
    let R := nm.filter (fun d => ¬ toNumber d.1 ≤ th)
    if L.length < msl ∨ R.length < msl then none
    else some { threshold := some th, cats := none
                lIdx := L.map (fun d => d.2.2), rIdx := R.map (fun d => d.2.2)
                gain := candGain tk nm L R })

/-- The candidate left-category sets of a categorical feature: for two
categories the single split isolating the first; for more, the `k − 1`
sorted-by-surrogate-metric prefix sets (stable sort, as JS `sort`). -/
def categoricalSets {T P : Type} (tk : Task T P)
    (nm : List (JVal × T × ℕ)) : List (List JVal) :=
  let cats := dedupFirst (nm.map (fun d => d.1))
  match cats with
  | [] => []
  | [_] => []
  | [c1, _] => [[c1]]
  | _ =>
    if tk.firstOk then
      let metrics := cats.filterMap (fun c =>
        let yc := (nm.filter (fun d => d.1 = c)).map (fun d => d.2.1)
        if yc.length = 0 then none else some (c, tk.catMetric yc))
      let sorted := List.insertionSort (fun a b => a.2 ≤ b.2) metrics
      (List.range (sorted.length - 1)).map
        (fun i => (sorted.take (i + 1)).map (fun m => m.1))
    else []

/-- Candidate splits of a categorical feature: partition by membership in
each candidate left-category set, rejecting empty, full, too-small or
empty-sided candidates. -/
def categoricalCands {T P : Type} (tk : Task T P) (msl : ℕ)
    (nm : List (JVal × T × ℕ)) : List Cand :=
  let cats := dedupFirst (nm.map (fun d => d.1))
  (categoricalSets tk nm).filterMap (fun lcs =>
    if lcs.length = 0 ∨ lcs.length = cats.length then none
    else
      let L := nm.filter (fun d => d.1 ∈ lcs)
      let R := nm.filter (fun d => ¬ d.1 ∈ lcs)
      if L.length < msl ∨ R.length < msl ∨ L.length = 0 ∨ R.length = 0 then none
      else some { threshold := none, cats := some lcs
                  lIdx := L.map (fun d => d.2.2), rIdx := R.map (fun d => d.2.2)
                  gain := candGain tk nm L R })

/-- The per-feature scan keeping the strictly best candidate (first wins
on ties; the initial best is `-Infinity`, so the first admissible
candidate is always taken). -/
def bestCand (cands : List Cand) : Option Cand :=
  cands.foldl
    (fun acc c =>
      match acc with
      | none => some c
      | some b => if b.gain < c.gain then some c else acc)
    none

/-- Distribute the missing-valued samples of the winning feature onto the
side of its split that received more non-missing samples (ties and an
empty right side go left; an empty left side sends them right). -/
def distributeMissing (L R M : List ℕ) : List ℕ × List ℕ :=
  if M.length = 0 then (L, R)
  else if R.length < L.length ∨ R.length = 0 then (L ++ M, R)
  else if L.length < R.length ∨ L.length = 0 then (L, R ++ M)
  else (L ++ M, R)

/-- The result record of `_findBestSplit`. -/
structure Split where
  featureIndex : ℕ
  threshold : Option ℚ
  splitCategories : Option (List JVal)
  impurityGain : ℚ
  leftIndices : List ℕ
  rightIndices : List ℕ

/-- The declared type of feature `fd` (`featureTypes_?.[idx] || "numerical"`). -/
def featTypeAt (fts : Option (List FeatType)) (fd : ℕ) : FeatType :=
  match fts with
  | none => FeatType.numerical
  | some l => l.getD fd FeatType.numerical

/-- `BaseDecisionTree._findBestSplit`: scan all features in order, keep
the candidate with the strictly largest gain, and attach the winning
feature's missing-valued samples to the final index lists. -/
def findBestSplit {T P : Type} (tk : Task T P) (pr : Params)
    (X : List (List FeatVal)) (y : List T) (nFeatures : ℕ) : Option Split :=
  (List.range nFeatures).foldl
    (fun best fd =>
      let col := featureColumn X y fd
      let nm := col.1
      if nm.length < pr.minSamplesSplit ∨ nm.length = 0 then best
      else
        let cands :=
          match featTypeAt pr.featureTypes fd with
          | FeatType.numerical => numericCands tk pr.minSamplesLeaf nm
          | FeatType.categorical => categoricalCands tk pr.minSamplesLeaf nm
        match bestCand cands with
        | none => best
        | some c =>
          let better :=
            match best with
            | none => true
            | some b => b.impurityGain < c.gain
          if better then
            let fin := distributeMissing c.lIdx c.rIdx col.2
            some { featureIndex := fd, threshold := c.threshold
                   splitCategories := c.cats, impurityGain := c.gain
                   leftIndices := fin.1, rightIndices := fin.2 }
          else best)
    none

/-- `featureImportances_[i] += d` (a no-op past the end, which cannot
happen for indices produced by the split search). -/
def addAt (l : List ℚ) (i : ℕ) (d : ℚ) : List ℚ :=
  l.set i (l.getD i 0 + d)

/-- The importance accumulation performed inside `_findBestSplit` after
the feature scan: only when a winner exists with strictly positive gain.
During a (first) fit `this.root` is still unset, so
`totalSamplesInTree = nSamplesInNode` and the node proportion is
`n / n`. -/
def accumulateImportance (acc : List ℚ) (bs : Option Split) (n : ℕ) : List ℚ :=
  match bs with
  | some sp =>
    if 0 < sp.impurityGain then
      addAt acc sp.featureIndex (sp.impurityGain * ((n : ℚ) / (n : ℚ)))
    else acc
  | none => acc

/-- `depth >= this.maxDepth` (false against `Infinity`). -/
def depthStop (md : Option ℕ) (depth : ℕ) : Bool :=
  match md with
  | none => false
  | some m => m ≤ depth

/-- `BaseDecisionTree._buildTree`, with explicit fuel (each recursive call
strictly reduces the sample count, so `|X| + 1` fuel suffices — proved
below).  Returns the built node and the threaded importance accumulator;
`none` means fuel exhaustion. -/
def buildTreeF {T P : Type} (tk : Task T P) (pr : Params) (nFeat : ℕ) :
    ℕ → List (List FeatVal) → List T → ℕ → List ℚ → Option (Node P × List ℚ)
  | 0, _, _, _, _ => none
  | fuel + 1, X, y, depth, acc =>
    let n := X.length
    let imp := tk.impurity y
    let plv := tk.leafValue y
    let leafNode : Node P := .mk none none none (some plv) (some imp) none none n true (some plv)
    if depthStop pr.maxDepth depth ∨ n < pr.minSamplesSplit ∨ imp = 0 ∨ n = 0 then
      some (leafNode, acc)
    else
      let bs := findBestSplit tk pr X y nFeat
      let acc1 := accumulateImportance acc bs n
      match bs with
      | none => some (leafNode, acc1)
      | some sp =>
        if sp.impurityGain ≤ pr.minImpurityDecrease then some (leafNode, acc1)
        else
          let Xl := sp.leftIndices.map (fun i => X.getD i [])
          let yl := sp.leftIndices.map (fun i => y.getD i tk.dflt)
          let Xr := sp.rightIndices.map (fun i => X.getD i [])
          let yr := sp.rightIndices.map (fun i => y.getD i tk.dflt)
          if Xl.length < pr.minSamplesLeaf ∨ Xr.length < pr.minSamplesLeaf then
            some (leafNode, acc1)
          else
            match buildTreeF tk pr nFeat fuel Xl yl (depth + 1) acc1 with
            | none => none
            | some (lch, acc2) =>
              match buildTreeF tk pr nFeat fuel Xr yr (depth + 1) acc2 with
              | none => none
              | some (rch, acc3) =>
                some (.mk (some sp.featureIndex) sp.threshold sp.splitCategories
                  none (some imp) (some lch) (some rch) n false (some plv), acc3)

/-- `BaseDecisionTree._pruneRecursive` (purified: the in-place mutation
becomes node reconstruction).  Returns the pruned node together with
`(totalImpuritySum, numLeaves)`; `none` models the crash on a malformed
internal node with a missing child. -/
def pruneRec {P : Type} (alpha : ℚ) : Node P → Option (Node P × ℚ × ℕ)
  | .mk f t sc v imp l r s leaf plv =>
    if leaf then some (.mk f t sc v imp l r s leaf plv, (imp.getD 0) * (s : ℚ), 1)
    else
      match l, r with
      | some ln, some rn =>
        match pruneRec alpha ln, pruneRec alpha rn with
        | some (ln2, sl, cl), some (rn2, sr, cr) =>
          let rtt := sl + sr
          let ltt := cl + cr
          let rt := (imp.getD 0) * (s : ℚ)
          if ltt ≤ 1 then
            some (.mk f t sc v imp (some ln2) (some rn2) s leaf plv, rtt, ltt)
          else if (rt - rtt) / ((ltt : ℚ) - 1) ≤ alpha then
            some (.mk none none none plv imp none none s true plv, rt, 1)
          else
            some (.mk f t sc v imp (some ln2) (some rn2) s leaf plv, rtt, ltt)
        | _, _ => none
      | _, _ => none

/-- The outcome of the shared `fit`: the (possibly pruned) root, the raw
importance accumulator, and the resolved feature metadata. -/
structure FitResult (P : Type) where
  root : Node P
  importances : List ℚ
  nFeatures : ℕ
  featureTypes : List FeatType

/-- `BaseDecisionTree.fit`: validate the inputs, resolve the feature
types, build (fuel `|X| + 1`), and prune only when `ccpAlpha > 0` and the
root is not already a leaf.  `none` models a thrown error. -/
def fitTree {T P : Type} (tk : Task T P) (pr : Params)
    (X : List (List FeatVal)) (y : List T) : Option (FitResult P) :=
  if X.length ≠ y.length then none
  else if X.length = 0 then none
  else
    let nFeat := (X.headD []).length
    let ftsOk : Option (List FeatType) :=
      match pr.featureTypes with
      | some fts => if fts.length ≠ nFeat then none else some fts
      | none => some (List.replicate nFeat FeatType.numerical)
    match ftsOk with
    | none => none
    | some fts =>
      let pr2 : Params :=
        { pr with featureTypes := some fts }
      let acc0 := List.replicate nFeat (0 : ℚ)
      match buildTreeF tk pr2 nFeat (X.length + 1) X y 0 acc0 with
      | none => none
      | some (root, acc) =>
        if 0 < pr.ccpAlpha ∧ root.isLeaf = false then
          match pruneRec pr.ccpAlpha root with
          | none => none
          | some (root2, _, _) => some ⟨root2, acc, nFeat, fts⟩
        else some ⟨root, acc, nFeat, fts⟩

/-- `getFeatureImportances()`: normalize the accumulator to sum `1`, or
return the all-zero vector when nothing was ever accumulated. -/
def getFeatureImportances {P : Type} (fr : FitResult P) : List ℚ :=
  let total := fr.importances.sum
  if total = 0 then List.replicate fr.nFeatures 0
  else fr.importances.map (fun imp => imp / total)

/-- `DecisionTreeClassifier.calculateLeafValue`: label-keyed empirical
frequencies of the samples that reached the leaf (insertion order;
JS additionally fronts integer-like keys, which only permutes entries). -/
def calculateLeafValue (y : List JVal) : ProbMap :=
  if y.length = 0 then []
  else (countsList y).map (fun kc => (kc.1, (kc.2 : ℚ) / (y.length : ℚ)))

/-- `[...new Set(y)].sort((a, b) => String(a).localeCompare(String(b)))`,
with `localeCompare` modelled as code-unit order. -/
def sortClasses (y : List JVal) : List JVal :=
  List.insertionSort (fun a b => a.key ≤ b.key) (dedupFirst y)

/-- The classifier task (Gini criterion — the default; entropy is
real-valued, see the header).  The categorical surrogate metric is the
empirical probability of the first unique class. -/
def classifierTask (uniqueClasses : List JVal) : Task JVal ProbMap :=
  { impurity := calculateGiniImpurity
    leafValue := calculateLeafValue
    firstOk := uniqueClasses ≠ []
    catMetric := fun yc =>
      ((yc.filter (fun l => l = uniqueClasses.headD (JVal.str ""))).length : ℚ)
        / (yc.length : ℚ)
    dflt := JVal.str "" }

/-- The regressor task; the constructor restricts the criterion to MSE or
MAE, and the categorical surrogate metric is the mean target. -/
def regressorTask (criterion : Criterion) : Task ℚ ℚ :=
  { impurity := fun y =>
      if criterion = Criterion.mae then calculateMAE y else calculateMSE y
    leafValue := fun y => if y.length = 0 then 0 else y.sum / (y.length : ℚ)
    firstOk := true
    catMetric := fun yc => yc.sum / (yc.length : ℚ)
    dflt := 0 }

/-- `DecisionTreeClassifier.fit`: capture the sorted unique classes, then
run the shared fit. -/
def fitClassifier (pr : Params) (X : List (List FeatVal)) (y : List JVal) :
    Option (ClassifierModel × FitResult ProbMap) :=
  let uniq := sortClasses y
  match fitTree (classifierTask uniq) pr X y with
  | none => none
  | some fr => some
    ({ root := some fr.root, criterion := .gini, maxDepth := pr.maxDepth
       minSamplesSplit := pr.minSamplesSplit, minSamplesLeaf := pr.minSamplesLeaf
       minImpurityDecrease := pr.minImpurityDecrease
       nFeatures := some fr.nFeatures, featureTypes := some fr.featureTypes
       uniqueClasses := some uniq, ccpAlpha := pr.ccpAlpha
       featureImportances := some fr.importances }, fr)

/-- `DecisionTreeRegressor.fit` (criterion already coerced to MSE/MAE by
the constructor). -/
def fitRegressor (criterion : Criterion) (pr : Params)
    (X : List (List FeatVal)) (y : List ℚ) :
    Option (RegressorModel × FitResult ℚ) :=
  match fitTree (regressorTask criterion) pr X y with
  | none => none
  | some fr => some
    ({ root := some fr.root, criterion := criterion, maxDepth := pr.maxDepth
       minSamplesSplit := pr.minSamplesSplit, minSamplesLeaf := pr.minSamplesLeaf
       minImpurityDecrease := pr.minImpurityDecrease
       nFeatures := some fr.nFeatures, featureTypes := some fr.featureTypes
       ccpAlpha := pr.ccpAlpha, featureImportances := some fr.importances }, fr)

/-- Well-formedness: every non-leaf node has both children (true of every
built tree; pruning preserves it). -/
def wfNode {P : Type} : Node P → Bool
  | .mk _ _ _ _ _ l r _ leaf _ =>
    if leaf then true
    else
      match l, r with
      | some ln, some rn => wfNode ln && wfNode rn
      | _, _ => false

/-- The number of leaves of a tree. -/
def leafCount {P : Type} : Node P → ℕ
  | .mk _ _ _ _ _ l r _ leaf _ =>
    if leaf then 1
    else
      (match l with
       | some ln => leafCount ln
       | none => 0)
      + (match r with
         | some rn => leafCount rn
         | none => 0)

/-- The sum of `impurity × samples` over the leaves of a tree. -/
def leafImpSum {P : Type} : Node P → ℚ
  | .mk _ _ _ _ imp l r s leaf _ =>
    if leaf then (imp.getD 0) * (s : ℚ)
    else
      (match l with
       | some ln => leafImpSum ln
       | none => 0)
      + (match r with
         | some rn => leafImpSum rn
         | none => 0)

/-! ### The random forest (src/ensemble/random_forest.ts)

Modelled at the deterministic `bootstrap: false` configuration: every tree
is trained on the full training set. -/

structure ForestModel where
  trees : List ClassifierModel
  nEstimators : ℕ

/-- `RandomForestClassifier.fit` with `bootstrap: false`: `nEstimators`
trees, each fit on `(X, y)`. -/
def rfFit (pr : Params) (nEstimators : ℕ) (X : List (List FeatVal))
    (y : List JVal) : Option ForestModel :=
  match fitClassifier pr X y with
  | none => none
  | some m => some ⟨List.replicate nEstimators m.1, nEstimators⟩

/-- `probasSum[i][label] = (probasSum[i][label] || 0) + prob`. -/
def recordAdd : List (String × ℚ) → String → ℚ → List (String × ℚ)
  | [], k, p => [(k, p)]
  | (k2, v) :: t, k, p =>
    if k2 = k then (k2, v + p) :: t else (k2, v) :: recordAdd t k p

/-- Fold one tree's probability matrix into the per-sample accumulator
records.  `Object.entries` on a JS array enumerates `[stringified index,
value]` pairs — the tree's `predictProba` rows are arrays, so the record
keys are `"0"`, `"1"`, … rather than class labels. -/
def rfAccumulate (acc : List (List (String × ℚ))) (treeP : List (List ℚ)) :
    List (List (String × ℚ)) :=
  (acc.zip treeP).map (fun az =>
    (az.2.enum).foldl (fun rec jp => recordAdd rec (toString jp.1) jp.2) az.1)

/-- `RandomForestClassifier.predictProba`: sum every tree's per-sample
probability rows into string-keyed records, then divide by
`nEstimators`. -/
def rfPredictProba (F : ForestModel) (X : List (List FeatVal)) :
    Option (List (List (String × ℚ))) :=
  if F.trees.length = 0 then none
  else do
    let allProbas ← F.trees.mapM (fun tr => tr.predictProba X)
    let sums := allProbas.foldl rfAccumulate (X.map (fun _ => []))
    pure (sums.map (fun rec => rec.map (fun kv => (kv.1, kv.2 / (F.nEstimators : ℚ)))))

/-- The probability that the claim says a tree assigns to class `cls` for
sample `s`: the leaf's stored probability for that label, `0` when the
label is absent from the leaf. -/
def treeClassProb (m : ClassifierModel) (cls : JVal) (s : List FeatVal) : Option ℚ :=
  match m.root with
  | none => none
  | some root => (predictSample s root).map (fun pm => lookupD pm cls.key)

/-- Decode a digit string (used to prove `Nat` string keys distinct). -/
def decodeFrom (init : ℕ) (cs : List Char) : ℕ :=
  cs.foldl (fun a c => a * 10 + (c.toNat - 48)) init

/-! ### Concrete example models used by witnesses -/

/-- A pure "A" classification leaf holding one training sample. -/
def exLeafA : Node ProbMap :=
  .mk none none none (some [("A", 1)]) (some 0) none none 1 true (some [("A", 1)])

/-- A pure "B" classification leaf holding one training sample. -/
def exLeafB : Node ProbMap :=
  .mk none none none (some [("B", 1)]) (some 0) none none 1 true (some [("B", 1)])

/-- An internal numeric-split node over the two leaves. -/
def exRootC : Node ProbMap :=
  .mk (some 0) (some (3 / 2)) none none (some (1 / 2)) (some exLeafA) (some exLeafB)
    2 false (some [("A", 1 / 2), ("B", 1 / 2)])

/-- A fitted two-leaf classifier over labels `"A" < "B"`. -/
def exClassifier : ClassifierModel :=
  { root := some exRootC, criterion := .gini, maxDepth := none
    minSamplesSplit := 2, minSamplesLeaf := 1, minImpurityDecrease := 0
    nFeatures := some 1, featureTypes := some [.numerical]
    uniqueClasses := some [JVal.str "A", JVal.str "B"], ccpAlpha := 0
    featureImportances := some [1] }

/-- The object graph `exClassifier.toJSON` produces. -/
def exClassifierJson : ClassifierJson :=
  { typeTag := "classifier", root := serializeNode exRootC, criterion := .gini
    maxDepth := none, minSamplesSplit := 2, minSamplesLeaf := 1
    minImpurityDecrease := 0, nFeatures := some 1
    featureTypes := some [.numerical]
    uniqueClasses := some [JVal.str "A", JVal.str "B"], ccpAlpha := 0 }

/-- The classifier `fromJSON` reconstructs from `exClassifierJson`. -/
def exClassifierReloaded : ClassifierModel :=
  { root := some exRootC, criterion := .gini, maxDepth := none
    minSamplesSplit := 2, minSamplesLeaf := 1, minImpurityDecrease := 0
    nFeatures := some 1, featureTypes := some [.numerical]
    uniqueClasses := some [JVal.str "A", JVal.str "B"], ccpAlpha := 0
    featureImportances := none }

/-- A one-leaf fitted regressor predicting `5`. -/
def exRegLeaf : Node ℚ := .mk none none none (some 5) (some 0) none none 1 true (some 5)

/-- The fitted regressor model around `exRegLeaf`. -/
def exRegressor : RegressorModel :=
  { root := some exRegLeaf, criterion := .mse, maxDepth := none
    minSamplesSplit := 2, minSamplesLeaf := 1, minImpurityDecrease := 0
    nFeatures := some 1, featureTypes := none, ccpAlpha := 0
    featureImportances := none }

/-- The object graph `exRegressor.toJSON` produces. -/
def exRegressorJson : RegressorJson :=
  { typeTag := "regressor", root := serializeNode exRegLeaf, criterion := .mse
    maxDepth := none, minSamplesSplit := 2, minSamplesLeaf := 1
    minImpurityDecrease := 0, nFeatures := some 1, featureTypes := none
    ccpAlpha := 0 }

/-- The regressor `fromJSON` reconstructs from `exRegressorJson`. -/
def exRegressorReloaded : RegressorModel :=
  { root := some exRegLeaf, criterion := .mse, maxDepth := none
    minSamplesSplit := 2, minSamplesLeaf := 1, minImpurityDecrease := 0
    nFeatures := some 1, featureTypes := none, ccpAlpha := 0
    featureImportances := none }

/-- The leaf that `exRootC` collapses into when pruned with a large
enough `ccpAlpha`. -/
def exRootCPruned : Node ProbMap :=
  .mk none none none (some [("A", 1 / 2), ("B", 1 / 2)]) (some (1 / 2)) none none
    2 true (some [("A", 1 / 2), ("B", 1 / 2)])

/-- The classifier model produced by fitting the two-sample training set
`[[1], [2]]` with labels `["A", "B"]` at default parameters. -/
def exClassifierFit : ClassifierModel :=
  { root := some exRootC, criterion := .gini, maxDepth := none
    minSamplesSplit := 2, minSamplesLeaf := 1, minImpurityDecrease := 0
    nFeatures := some 1, featureTypes := some [.numerical]
    uniqueClasses := some [JVal.str "A", JVal.str "B"], ccpAlpha := 0
    featureImportances := some [1 / 2] }

/-- The single-tree forest `rfFit` produces from that training set with
`nEstimators = 1`. -/
def exForest : ForestModel := ⟨[exClassifierFit], 1⟩

/-! ## Theorems -/

/-! ### Basic lemmas about `dedupFirst` and the counts record -/

theorem mem_dedupFirst {α : Type} [DecidableEq α] {l : List α} {x : α} :
    x ∈ dedupFirst l ↔ x ∈ l := by
  induction l with
  | nil => simp [dedupFirst]
  | cons a t ih =>
    simp only [dedupFirst, List.mem_cons, List.mem_filter, ih]
    constructor
    · intro h
      rcases h with h | ⟨h1, _⟩
      · exact Or.inl h
      · exact Or.inr h1
    · intro h
      rcases h with h | h
      · exact Or.inl h
      · by_cases hx : x = a
        · exact Or.inl hx
        · exact Or.inr ⟨h, by simpa using hx⟩

theorem nodup_dedupFirst {α : Type} [DecidableEq α] (l : List α) :
    (dedupFirst l).Nodup := by
  induction l with
  | nil => exact List.nodup_nil
  | cons a t ih =>
    refine List.Nodup.cons ?_ (ih.filter _)
    intro hmem
    have := (List.mem_filter.mp hmem).2
    simp at this

theorem dedupFirst_perm {α : Type} [DecidableEq α] {l l' : List α}
    (h : l.Perm l') : (dedupFirst l).Perm (dedupFirst l') := by
  refine (List.perm_ext_iff_of_nodup (nodup_dedupFirst l) (nodup_dedupFirst l')).mpr ?_
  intro a
  rw [mem_dedupFirst, mem_dedupFirst]
  exact ⟨fun ha => h.mem_iff.mp ha, fun ha => h.mem_iff.mpr ha⟩

theorem dedupFirst_append_singleton {α : Type} [DecidableEq α] (l : List α) (x : α) :
    dedupFirst (l ++ [x]) =
      if x ∈ l then dedupFirst l else dedupFirst l ++ [x] := by
  induction l with
  | nil => simp [dedupFirst]
  | cons a t ih =>
    show dedupFirst (a :: (t ++ [x])) = _
    rw [show dedupFirst (a :: (t ++ [x]))
          = a :: (dedupFirst (t ++ [x])).filter (fun b => b ≠ a) from rfl,
        ih]
    by_cases hx : x ∈ t
    · have hmem : x ∈ a :: t := List.mem_cons_of_mem a hx
      simp only [hx, if_true, hmem, if_true]
      rfl
    · by_cases hxa : x = a
      · subst hxa
        have hmem : x ∈ x :: t := List.mem_cons_self x t
        simp only [hx, if_false, hmem, if_true, List.filter_append]
        have : List.filter (fun b => decide (b ≠ x)) [x] = [] := by simp
        rw [this, List.append_nil]
        rfl
      · have hmem : x ∉ a :: t := by
          intro h
          rcases List.mem_cons.mp h with h1 | h1
          · exact hxa h1
          · exact hx h1
        simp only [hx, if_false, hmem, if_false, List.filter_append]
        have : List.filter (fun b => decide (b ≠ a)) [x] = [x] := by simp [hxa]
        rw [this]
        show a :: ((dedupFirst t).filter (fun b => b ≠ a) ++ [x])
          = (a :: (dedupFirst t).filter (fun b => b ≠ a)) ++ [x]
        simp

theorem filter_eq_of_nodup {α : Type} [DecidableEq α] {l : List α}
    (h : l.Nodup) (a : α) :
    l.filter (fun b => b = a) = if a ∈ l then [a] else [] := by
  induction l with
  | nil => simp
  | cons b t ih =>
    have hb : b ∉ t := (List.nodup_cons.mp h).1
    have ht : t.Nodup := (List.nodup_cons.mp h).2
    by_cases hba : b = a
    · subst hba
      have : ¬ b ∈ t := hb
      simp [List.filter_cons, ih ht, this]
    · simp only [List.filter_cons, decide_eq_true_eq, hba, if_false, ih ht,
        List.mem_cons]
      by_cases hat : a ∈ t
      · simp [hat, Ne.symm hba, hba]
      · simp [hat, Ne.symm hba, hba]

theorem sum_count_dedupFirst {α : Type} [DecidableEq α] (l : List α) :
    ((dedupFirst l).map (fun a => l.count a)).sum = l.length := by
  induction l with
  | nil => simp [dedupFirst]
  | cons a t ih =>
    have hsplit : List.Perm
        (((dedupFirst t).filter (fun b => b ≠ a)) ++
          ((dedupFirst t).filter (fun b => ¬ b ≠ a)))
        (dedupFirst t) := by
      simpa using List.filter_append_perm (fun b => b ≠ a) (dedupFirst t)
    have hsum : (((dedupFirst t).filter (fun b => b ≠ a)).map (fun b => t.count b)).sum +
        (((dedupFirst t).filter (fun b => ¬ b ≠ a)).map (fun b => t.count b)).sum
          = t.length := by
      have := (hsplit.map (fun b => t.count b)).sum_eq
      rw [List.map_append, List.sum_append] at this
      rw [this, ih]
    have heqfilter : (dedupFirst t).filter (fun b => ¬ b ≠ a)
        = if a ∈ t then [a] else [] := by
      have : (fun b : α => ¬ b ≠ a) = (fun b : α => b = a) := by
        funext b; simp
      rw [show ((dedupFirst t).filter (fun b => ¬ b ≠ a))
            = ((dedupFirst t).filter (fun b => b = a)) by
          apply List.filter_congr; intro b _; simp]
      rw [filter_eq_of_nodup (nodup_dedupFirst t) a]
      by_cases hat : a ∈ t
      · simp [hat, mem_dedupFirst]
      · simp [hat, mem_dedupFirst]
    have hsecond : (((dedupFirst t).filter (fun b => ¬ b ≠ a)).map
        (fun b => t.count b)).sum = t.count a := by
      rw [heqfilter]
      by_cases hat : a ∈ t
      · simp [hat]
      · simp [hat, List.count_eq_zero_of_not_mem hat]
    -- counts in `a :: t` of the elements of the filtered dedup list
    have hmap : (((dedupFirst t).filter (fun b => b ≠ a)).map
          (fun b => (a :: t).count b))
        = (((dedupFirst t).filter (fun b => b ≠ a)).map (fun b => t.count b)) := by
      apply List.map_congr_left
      intro b hb
      have hbne : b ≠ a := by
        have := (List.mem_filter.mp hb).2; simpa using this
      rw [List.count_cons]
      simp [Ne.symm hbne]
    calc ((dedupFirst (a :: t)).map (fun b => (a :: t).count b)).sum
        = (a :: t).count a +
          (((dedupFirst t).filter (fun b => b ≠ a)).map (fun b => (a :: t).count b)).sum := by
          simp [dedupFirst]
      _ = (t.count a + 1) +
          (((dedupFirst t).filter (fun b => b ≠ a)).map (fun b => t.count b)).sum := by
          rw [hmap, List.count_cons]; simp
      _ = t.length + 1 := by omega
      _ = (a :: t).length := by simp

theorem bumpCount_canon_mem {ks : List String} (hnd : ks.Nodup) (c : String → ℕ)
    {k : String} (hk : k ∈ ks) :
    bumpCount (ks.map fun j => (j, c j)) k
      = ks.map fun j => (j, if j = k then c j + 1 else c j) := by
  induction ks with
  | nil => cases hk
  | cons j t ih =>
    have hj : j ∉ t := (List.nodup_cons.mp hnd).1
    have ht : t.Nodup := (List.nodup_cons.mp hnd).2
    by_cases hjk : j = k
    · subst hjk
      show bumpCount ((j, c j) :: t.map fun i => (i, c i)) j = _
      rw [show bumpCount ((j, c j) :: t.map fun i => (i, c i)) j
            = (j, c j + 1) :: t.map (fun i => (i, c i)) by simp [bumpCount]]
      have : (t.map fun i => (i, if i = j then c i + 1 else c i))
          = t.map fun i => (i, c i) := by
        apply List.map_congr_left
        intro i hi
        have : i ≠ j := fun h => hj (h ▸ hi)
        simp [this]
      simp [this]
    · have hk' : k ∈ t := by
        rcases List.mem_cons.mp hk with h | h
        · exact absurd h.symm hjk
        · exact h
      show bumpCount ((j, c j) :: t.map fun i => (i, c i)) k = _
      rw [show bumpCount ((j, c j) :: t.map fun i => (i, c i)) k
            = (j, c j) :: bumpCount (t.map fun i => (i, c i)) k by
          simp [bumpCount, hjk]]
      rw [ih ht hk']
      simp [hjk]

theorem bumpCount_canon_notMem (ks : List String) (c : String → ℕ)
    {k : String} (hk : k ∉ ks) :
    bumpCount (ks.map fun j => (j, c j)) k
      = ks.map (fun j => (j, c j)) ++ [(k, 1)] := by
  induction ks with
  | nil => simp [bumpCount]
  | cons j t ih =>
    have hjk : j ≠ k := fun h => hk (h ▸ List.mem_cons_self j t)
    have hk' : k ∉ t := fun h => hk (List.mem_cons_of_mem j h)
    show bumpCount ((j, c j) :: t.map fun i => (i, c i)) k = _
    rw [show bumpCount ((j, c j) :: t.map fun i => (i, c i)) k
          = (j, c j) :: bumpCount (t.map fun i => (i, c i)) k by
        simp [bumpCount, hjk]]
    rw [ih hk']
    simp

theorem foldl_bumpCount_eq (ks : List String) :
    ks.foldl bumpCount [] = (dedupFirst ks).map (fun k => (k, ks.count k)) := by
  induction ks using List.reverseRecOn with
  | nil => simp [dedupFirst]
  | append_singleton ks k ih =>
    rw [List.foldl_append, List.foldl_cons, List.foldl_nil, ih,
      dedupFirst_append_singleton]
    by_cases hk : k ∈ ks
    · have hkd : k ∈ dedupFirst ks := mem_dedupFirst.mpr hk
      rw [if_pos hk,
        bumpCount_canon_mem (nodup_dedupFirst ks) (fun j => ks.count j) hkd]
      apply List.map_congr_left
      intro j hj
      rw [List.count_append]
      by_cases hjk : j = k
      · subst hjk; simp [List.count_cons]
      · simp [List.count_cons, hjk]
    · rw [if_neg hk,
        bumpCount_canon_notMem (dedupFirst ks) (fun j => ks.count j)
          (fun h => hk (mem_dedupFirst.mp h))]
      rw [List.map_append]
      congr 1
      · apply List.map_congr_left
        intro j hj
        have hjk : j ≠ k := by
          intro h
          exact hk (mem_dedupFirst.mp (h ▸ hj))
        rw [List.count_append]
        simp [List.count_cons, hjk]
      · have : ks.count k = 0 := List.count_eq_zero_of_not_mem hk
        simp [List.count_append, this, List.count_cons]

theorem countsList_eq (y : List JVal) :
    countsList y
      = (dedupFirst (y.map JVal.key)).map
          (fun k => (k, (y.map JVal.key).count k)) := by
  rw [countsList, show (y.foldl (fun l v => bumpCount l v.key) [])
        = ((y.map JVal.key).foldl bumpCount []) by
      rw [List.foldl_map]]
  exact foldl_bumpCount_eq (y.map JVal.key)

theorem countsList_sum (y : List JVal) :
    ((countsList y).map (fun kc => kc.2)).sum = y.length := by
  rw [countsList_eq, List.map_map]
  have : ((fun kc : String × ℕ => kc.2) ∘ fun k => (k, (y.map JVal.key).count k))
      = fun k => (y.map JVal.key).count k := rfl
  rw [this]
  have := sum_count_dedupFirst (y.map JVal.key)
  simpa using this

theorem mem_countsList {y : List JVal} {kc : String × ℕ}
    (h : kc ∈ countsList y) :
    kc.1 ∈ y.map JVal.key ∧ kc.2 = (y.map JVal.key).count kc.1 ∧ 0 < kc.2 := by
  rw [countsList_eq] at h
  rcases List.mem_map.mp h with ⟨k, hk, hkeq⟩
  have hk' : k ∈ y.map JVal.key := mem_dedupFirst.mp hk
  subst hkeq
  refine ⟨hk', rfl, ?_⟩
  exact List.count_pos_iff.mpr hk'

/-! ### Arithmetic helpers for the impurity criteria -/

theorem sum_map_div_q {α : Type} (l : List α) (f : α → ℚ) (n : ℚ) :
    (l.map (fun a => f a / n)).sum = (l.map f).sum / n := by
  induction l with
  | nil => simp
  | cons a t ih => simp [ih, add_div]

theorem sum_map_sub_q {α : Type} (l : List α) (f g : α → ℚ) :
    (l.map (fun a => f a - g a)).sum = (l.map f).sum - (l.map g).sum := by
  induction l with
  | nil => simp
  | cons a t ih =>
    simp only [List.map_cons, List.sum_cons, ih]
    ring

theorem list_sum_eq_zero_iff_of_nonneg {K : Type} [LinearOrderedField K]
    {l : List K} (h : ∀ x ∈ l, 0 ≤ x) : l.sum = 0 ↔ ∀ x ∈ l, x = 0 := by
  induction l with
  | nil => simp
  | cons a t ih =>
    have ha : 0 ≤ a := h a (List.mem_cons_self a t)
    have ht : ∀ x ∈ t, 0 ≤ x := fun x hx => h x (List.mem_cons_of_mem a hx)
    have hts : 0 ≤ t.sum := List.sum_nonneg ht
    rw [List.sum_cons]
    constructor
    · intro h0
      have ha0 : a = 0 := by linarith
      have hts0 : t.sum = 0 := by linarith
      intro x hx
      rcases List.mem_cons.mp hx with rfl | hx
      · exact ha0
      · exact ((ih ht).mp hts0) x hx
    · intro h0
      have : t.sum = 0 := (ih ht).mpr (fun x hx => h0 x (List.mem_cons_of_mem a hx))
      rw [this, h0 a (List.mem_cons_self a t)]
      ring

theorem count_eq_length_of_all {α : Type} [DecidableEq α] {l : List α} {a : α}
    (h : ∀ x ∈ l, x = a) : l.count a = l.length := by
  induction l with
  | nil => simp
  | cons b t ih =>
    have hb : b = a := h b (List.mem_cons_self b t)
    subst hb
    rw [List.count_cons]
    simp [ih (fun x hx => h x (List.mem_cons_of_mem b hx))]

theorem sum_of_all_eq {l : List ℚ} {a : ℚ} (h : ∀ x ∈ l, x = a) :
    l.sum = (l.length : ℚ) * a := by
  induction l with
  | nil => simp
  | cons b t ih =>
    have hb : b = a := h b (List.mem_cons_self b t)
    subst hb
    rw [List.sum_cons, ih (fun x hx => h x (List.mem_cons_of_mem b hx))]
    push_cast [List.length_cons]
    ring

theorem count_add_count_le_length {α : Type} [DecidableEq α] (l : List α)
    {a b : α} (hab : a ≠ b) : l.count a + l.count b ≤ l.length := by
  induction l with
  | nil => simp
  | cons c t ih =>
    simp only [List.count_cons, List.length_cons, beq_iff_eq]
    by_cases h1 : a = c <;> by_cases h2 : b = c
    · exact absurd (h1.trans h2.symm) hab
    · rw [if_pos h1.symm, if_neg (fun h => h2 h.symm)]
      omega
    · rw [if_neg (fun h => h1 h.symm), if_pos h2.symm]
      omega
    · rw [if_neg (fun h => h1 h.symm), if_neg (fun h => h2 h.symm)]
      omega

/-- In a nonempty label list, every count equals the full length iff all
labels coerce to the same record key. -/
theorem counts_full_iff {y : List JVal} (hy : y ≠ []) :
    (∀ kc ∈ countsList y, kc.2 = y.length)
      ↔ ∀ a ∈ y, ∀ b ∈ y, JVal.key a = JVal.key b := by
  have hlen : (y.map JVal.key).length = y.length := List.length_map y JVal.key
  have hn : 0 < y.length := List.length_pos.mpr hy
  constructor
  · intro h a ha b hb
    rw [countsList_eq] at h
    have hall : ∀ k ∈ dedupFirst (y.map JVal.key),
        (y.map JVal.key).count k = y.length := by
      intro k hk
      exact h (k, (y.map JVal.key).count k) (List.mem_map_of_mem _ hk)
    have h1 : (y.map JVal.key).count a.key = y.length :=
      hall a.key (mem_dedupFirst.mpr (List.mem_map_of_mem JVal.key ha))
    have h2 : (y.map JVal.key).count b.key = y.length :=
      hall b.key (mem_dedupFirst.mpr (List.mem_map_of_mem JVal.key hb))
    by_contra hne
    have := count_add_count_le_length (y.map JVal.key) hne
    omega
  · intro h kc hkc
    obtain ⟨hk1, hk2, _⟩ := mem_countsList hkc
    rcases List.mem_map.mp hk1 with ⟨a, ha, hka⟩
    have : ∀ x ∈ y.map JVal.key, x = kc.1 := by
      intro x hx
      rcases List.mem_map.mp hx with ⟨b, hb, hkb⟩
      rw [← hkb, ← hka]
      exact h b hb a ha
    rw [hk2, count_eq_length_of_all this, hlen]

theorem counts_bounds {y : List JVal} {kc : String × ℕ} (h : kc ∈ countsList y) :
    0 < kc.2 ∧ kc.2 ≤ y.length := by
  obtain ⟨h1, h2, h3⟩ := mem_countsList h
  refine ⟨h3, ?_⟩
  rw [h2]
  calc (y.map JVal.key).count kc.1 ≤ (y.map JVal.key).length :=
        List.count_le_length kc.1 (y.map JVal.key)
    _ = y.length := List.length_map y JVal.key

theorem gini_eq_zero_iff (y : List JVal) :
    calculateGiniImpurity y = 0 ↔ ∀ a ∈ y, ∀ b ∈ y, JVal.key a = JVal.key b := by
  by_cases hy : y = []
  · subst hy
    simp [calculateGiniImpurity]
  · have hn : 0 < y.length := List.length_pos.mpr hy
    have hn0 : (y.length : ℚ) ≠ 0 := by
      exact_mod_cast hn.ne'
    rw [calculateGiniImpurity, if_neg (by omega)]
    have hcast : ((countsList y).map (fun kc => (kc.2 : ℚ))).sum = (y.length : ℚ) := by
      rw [← countsList_sum y, Nat.cast_list_sum, List.map_map]
      rfl
    have hP : ((countsList y).map (fun kc => (kc.2 : ℚ) / (y.length : ℚ))).sum = 1 := by
      rw [sum_map_div_q, hcast, div_self hn0]
    have hsub : ((countsList y).map
        (fun kc => (kc.2 : ℚ) / (y.length : ℚ)
          - ((kc.2 : ℚ) / (y.length : ℚ)) * ((kc.2 : ℚ) / (y.length : ℚ)))).sum
        = 1 - ((countsList y).map
          (fun kc => ((kc.2 : ℚ) / (y.length : ℚ)) * ((kc.2 : ℚ) / (y.length : ℚ)))).sum := by
      rw [sum_map_sub_q, hP]
    have hnonneg : ∀ x ∈ (countsList y).map
        (fun kc => (kc.2 : ℚ) / (y.length : ℚ)
          - ((kc.2 : ℚ) / (y.length : ℚ)) * ((kc.2 : ℚ) / (y.length : ℚ))), 0 ≤ x := by
      intro x hx
      rcases List.mem_map.mp hx with ⟨kc, hkc, rfl⟩
      obtain ⟨hpos, hle⟩ := counts_bounds hkc
      have hp0 : (0 : ℚ) ≤ (kc.2 : ℚ) / (y.length : ℚ) := by positivity
      have hp1 : (kc.2 : ℚ) / (y.length : ℚ) ≤ 1 := by
        rw [div_le_one (by exact_mod_cast hn)]
        exact_mod_cast hle
      nlinarith
    constructor
    · intro h0
      rw [← counts_full_iff hy]
      intro kc hkc
      have hzero : ((countsList y).map
          (fun kc => (kc.2 : ℚ) / (y.length : ℚ)
            - ((kc.2 : ℚ) / (y.length : ℚ)) * ((kc.2 : ℚ) / (y.length : ℚ)))).sum = 0 := by
        rw [hsub]
        linarith
      have heach := (list_sum_eq_zero_iff_of_nonneg hnonneg).mp hzero
      have hterm := heach _ (List.mem_map_of_mem _ hkc)
      obtain ⟨hpos, hle⟩ := counts_bounds hkc
      have hppos : (0 : ℚ) < (kc.2 : ℚ) / (y.length : ℚ) := by
        apply div_pos
        · exact_mod_cast hpos
        · exact_mod_cast hn
      have hp1 : (kc.2 : ℚ) / (y.length : ℚ) = 1 := by nlinarith
      have : (kc.2 : ℚ) = (y.length : ℚ) := by
        field_simp at hp1
        exact_mod_cast hp1
      exact_mod_cast this
    · intro h
      have hfull := (counts_full_iff hy).mpr h
      have : ∀ kc ∈ countsList y,
          ((kc.2 : ℚ) / (y.length : ℚ)) * ((kc.2 : ℚ) / (y.length : ℚ)) =
          (kc.2 : ℚ) / (y.length : ℚ) := by
        intro kc hkc
        rw [hfull kc hkc, div_self hn0]
        ring
      rw [List.map_congr_left this, hP]
      ring

theorem entropy_eq_zero_iff (y : List JVal) :
    calculateEntropy y = 0 ↔ ∀ a ∈ y, ∀ b ∈ y, JVal.key a = JVal.key b := by
  by_cases hy : y = []
  · subst hy
    simp [calculateEntropy]
  · have hn : 0 < y.length := List.length_pos.mpr hy
    have hnR : (0 : ℝ) < (y.length : ℝ) := by exact_mod_cast hn
    rw [calculateEntropy, if_neg (by omega)]
    have hbranch : ((countsList y).map
        (fun kc =>
          if 0 < (kc.2 : ℝ) / (y.length : ℝ) then
            -(((kc.2 : ℝ) / (y.length : ℝ)) * Real.logb 2 ((kc.2 : ℝ) / (y.length : ℝ)))
          else 0))
        = (countsList y).map
          (fun kc =>
            -(((kc.2 : ℝ) / (y.length : ℝ)) * Real.logb 2 ((kc.2 : ℝ) / (y.length : ℝ)))) := by
      apply List.map_congr_left
      intro kc hkc
      obtain ⟨hpos, _⟩ := counts_bounds hkc
      rw [if_pos]
      apply div_pos
      · exact_mod_cast hpos
      · exact hnR
    rw [hbranch]
    have hfacts : ∀ kc ∈ countsList y,
        0 < (kc.2 : ℝ) / (y.length : ℝ) ∧ (kc.2 : ℝ) / (y.length : ℝ) ≤ 1 := by
      intro kc hkc
      obtain ⟨hpos, hle⟩ := counts_bounds hkc
      constructor
      · apply div_pos
        · exact_mod_cast hpos
        · exact hnR
      · rw [div_le_one hnR]
        exact_mod_cast hle
    have hnonneg : ∀ x ∈ (countsList y).map
        (fun kc =>
          -(((kc.2 : ℝ) / (y.length : ℝ)) * Real.logb 2 ((kc.2 : ℝ) / (y.length : ℝ)))),
        0 ≤ x := by
      intro x hx
      rcases List.mem_map.mp hx with ⟨kc, hkc, rfl⟩
      obtain ⟨hp0, hp1⟩ := hfacts kc hkc
      have hlog : Real.logb 2 ((kc.2 : ℝ) / (y.length : ℝ)) ≤ 0 :=
        Real.logb_nonpos (by norm_num) hp0.le hp1
      nlinarith
    rw [list_sum_eq_zero_iff_of_nonneg hnonneg, ← counts_full_iff hy]
    constructor
    · intro h kc hkc
      have hterm := h _ (List.mem_map_of_mem _ hkc)
      obtain ⟨hp0, hp1⟩ := hfacts kc hkc
      have hlogzero : Real.logb 2 ((kc.2 : ℝ) / (y.length : ℝ)) = 0 := by
        by_contra hne
        have : ((kc.2 : ℝ) / (y.length : ℝ)) * Real.logb 2 ((kc.2 : ℝ) / (y.length : ℝ)) ≠ 0 :=
          mul_ne_zero hp0.ne' hne
        rw [neg_eq_zero] at hterm
        exact this hterm
      have hp_eq_one : (kc.2 : ℝ) / (y.length : ℝ) = 1 := by
        rcases lt_or_eq_of_le hp1 with hlt | heq
        · exfalso
          have := Real.logb_neg (by norm_num : (1:ℝ) < 2) hp0 hlt
          rw [hlogzero] at this
          exact lt_irrefl 0 this
        · exact heq
      have : (kc.2 : ℝ) = (y.length : ℝ) := by
        field_simp at hp_eq_one
        exact_mod_cast hp_eq_one
      exact_mod_cast this
    · intro h x hx
      rcases List.mem_map.mp hx with ⟨kc, hkc, rfl⟩
      have heq := h kc hkc
      have hp : (kc.2 : ℝ) / (y.length : ℝ) = 1 := by
        rw [heq, div_self hnR.ne']
      rw [hp, Real.logb_one]
      ring

theorem mse_eq_zero_iff (y : List ℚ) :
    calculateMSE y = 0 ↔ ∀ a ∈ y, ∀ b ∈ y, a = b := by
  by_cases hy : y = []
  · subst hy
    simp [calculateMSE]
  · have hn : 0 < y.length := List.length_pos.mpr hy
    have hn0 : (y.length : ℚ) ≠ 0 := by exact_mod_cast hn.ne'
    rw [calculateMSE, if_neg (by omega)]
    rw [div_eq_zero_iff]
    have hnonneg : ∀ x ∈ y.map
        (fun v => (v - y.sum / (y.length : ℚ)) * (v - y.sum / (y.length : ℚ))), 0 ≤ x := by
      intro x hx
      rcases List.mem_map.mp hx with ⟨v, _, rfl⟩
      exact mul_self_nonneg _
    constructor
    · intro h
      rcases h with h | h
      · have heach := (list_sum_eq_zero_iff_of_nonneg hnonneg).mp h
        intro a ha b hb
        have hmean : ∀ v ∈ y, v = y.sum / (y.length : ℚ) := by
          intro v hv
          have := heach _ (List.mem_map_of_mem _ hv)
          have := mul_self_eq_zero.mp this
          linarith
        rw [hmean a ha, hmean b hb]
      · exact absurd h hn0
    · intro h
      left
      rcases List.exists_mem_of_ne_nil y hy with ⟨a, ha⟩
      have hall : ∀ v ∈ y, v = a := fun v hv => h v hv a ha
      have hsum : y.sum = (y.length : ℚ) * a := sum_of_all_eq hall
      have hmean : y.sum / (y.length : ℚ) = a := by
        rw [hsum, mul_comm, mul_div_assoc, div_self hn0, mul_one]
      apply (list_sum_eq_zero_iff_of_nonneg hnonneg).mpr
      intro x hx
      rcases List.mem_map.mp hx with ⟨v, hv, rfl⟩
      rw [hmean, hall v hv]
      ring

theorem mae_eq_zero_iff (y : List ℚ) :
    calculateMAE y = 0 ↔ ∀ a ∈ y, ∀ b ∈ y, a = b := by
  by_cases hy : y = []
  · subst hy
    simp [calculateMAE]
  · have hn : 0 < y.length := List.length_pos.mpr hy
    have hn0 : (y.length : ℚ) ≠ 0 := by exact_mod_cast hn.ne'
    rw [calculateMAE, if_neg (by omega)]
    rw [div_eq_zero_iff]
    have hnonneg : ∀ x ∈ y.map (fun v => |v - y.sum / (y.length : ℚ)|), 0 ≤ x := by
      intro x hx
      rcases List.mem_map.mp hx with ⟨v, _, rfl⟩
      exact abs_nonneg _
    constructor
    · intro h
      rcases h with h | h
      · have heach := (list_sum_eq_zero_iff_of_nonneg hnonneg).mp h
        intro a ha b hb
        have hmean : ∀ v ∈ y, v = y.sum / (y.length : ℚ) := by
          intro v hv
          have := heach _ (List.mem_map_of_mem _ hv)
          have := abs_eq_zero.mp this
          linarith
        rw [hmean a ha, hmean b hb]
      · exact absurd h hn0
    · intro h
      left
      rcases List.exists_mem_of_ne_nil y hy with ⟨a, ha⟩
      have hall : ∀ v ∈ y, v = a := fun v hv => h v hv a ha
      have hsum : y.sum = (y.length : ℚ) * a := sum_of_all_eq hall
      have hmean : y.sum / (y.length : ℚ) = a := by
        rw [hsum, mul_comm, mul_div_assoc, div_self hn0, mul_one]
      apply (list_sum_eq_zero_iff_of_nonneg hnonneg).mpr
      intro x hx
      rcases List.mem_map.mp hx with ⟨v, hv, rfl⟩
      rw [hmean, hall v hv]
      simp

theorem gini_perm {y y' : List JVal} (h : y.Perm y') :
    calculateGiniImpurity y = calculateGiniImpurity y' := by
  have hlen := h.length_eq
  by_cases hy : y.length = 0
  · rw [calculateGiniImpurity, calculateGiniImpurity, if_pos hy, if_pos (by omega)]
  · rw [calculateGiniImpurity, calculateGiniImpurity, if_neg hy, if_neg (by omega)]
    have hk : (y.map JVal.key).Perm (y'.map JVal.key) := h.map JVal.key
    have hD := dedupFirst_perm hk
    congr 1
    rw [countsList_eq, countsList_eq, List.map_map, List.map_map]
    have hfun : ((fun kc : String × ℕ =>
          ((kc.2 : ℚ) / (y.length : ℚ)) * ((kc.2 : ℚ) / (y.length : ℚ)))
            ∘ fun k => (k, (y.map JVal.key).count k))
        = ((fun kc : String × ℕ =>
          ((kc.2 : ℚ) / (y'.length : ℚ)) * ((kc.2 : ℚ) / (y'.length : ℚ)))
            ∘ fun k => (k, (y'.map JVal.key).count k)) := by
      funext k
      simp only [Function.comp_apply]
      rw [hk.count_eq, hlen]
    rw [hfun]
    exact (hD.map _).sum_eq

theorem entropy_perm {y y' : List JVal} (h : y.Perm y') :
    calculateEntropy y = calculateEntropy y' := by
  have hlen := h.length_eq
  by_cases hy : y.length = 0
  · rw [calculateEntropy, calculateEntropy, if_pos hy, if_pos (by omega)]
  · rw [calculateEntropy, calculateEntropy, if_neg hy, if_neg (by omega)]
    have hk : (y.map JVal.key).Perm (y'.map JVal.key) := h.map JVal.key
    have hD := dedupFirst_perm hk
    rw [countsList_eq, countsList_eq, List.map_map, List.map_map]
    have hfun : ((fun kc : String × ℕ =>
          if 0 < (kc.2 : ℝ) / (y.length : ℝ) then
            -(((kc.2 : ℝ) / (y.length : ℝ)) * Real.logb 2 ((kc.2 : ℝ) / (y.length : ℝ)))
          else 0) ∘ fun k => (k, (y.map JVal.key).count k))
        = ((fun kc : String × ℕ =>
          if 0 < (kc.2 : ℝ) / (y'.length : ℝ) then
            -(((kc.2 : ℝ) / (y'.length : ℝ)) * Real.logb 2 ((kc.2 : ℝ) / (y'.length : ℝ)))
          else 0) ∘ fun k => (k, (y'.map JVal.key).count k)) := by
      funext k
      simp only [Function.comp_apply]
      rw [hk.count_eq, hlen]
    rw [hfun]
    exact (hD.map ((fun kc : String × ℕ =>
      if 0 < (kc.2 : ℝ) / (y'.length : ℝ) then
        -(((kc.2 : ℝ) / (y'.length : ℝ)) * Real.logb 2 ((kc.2 : ℝ) / (y'.length : ℝ)))
      else 0) ∘ fun k => (k, (y'.map JVal.key).count k))).sum_eq

theorem mse_perm {y y' : List ℚ} (h : y.Perm y') :
    calculateMSE y = calculateMSE y' := by
  have hlen := h.length_eq
  have hsum := h.sum_eq
  by_cases hy : y.length = 0
  · rw [calculateMSE, calculateMSE, if_pos hy, if_pos (by omega)]
  · rw [calculateMSE, calculateMSE, if_neg hy, if_neg (by omega)]
    simp only
    rw [hlen, hsum]
    congr 1
    exact (h.map (fun v =>
      (v - y'.sum / (y'.length : ℚ)) * (v - y'.sum / (y'.length : ℚ)))).sum_eq

theorem mae_perm {y y' : List ℚ} (h : y.Perm y') :
    calculateMAE y = calculateMAE y' := by
  have hlen := h.length_eq
  have hsum := h.sum_eq
  by_cases hy : y.length = 0
  · rw [calculateMAE, calculateMAE, if_pos hy, if_pos (by omega)]
  · rw [calculateMAE, calculateMAE, if_neg hy, if_neg (by omega)]
    simp only
    rw [hlen, hsum]
    congr 1
    exact (h.map (fun v => |v - y'.sum / (y'.length : ℚ)|)).sum_eq

/-- **C8** (amended).  For the four impurity criteria: each returns `0` on
empty input; Gini and entropy are `0` exactly when all labels coerce to the
same record key (JS object keys are strings, so `1` and `"1"` coincide — on
inputs without such cross-type collisions this is "all labels identical");
MSE and MAE are `0` exactly when all values are identical; and all four are
invariant under permutation of the input. -/
theorem claim_C8 :
    (calculateGiniImpurity [] = 0 ∧ calculateEntropy [] = 0
      ∧ calculateMSE [] = 0 ∧ calculateMAE [] = 0)
    ∧ (∀ y : List JVal,
        (calculateGiniImpurity y = 0 ↔ ∀ a ∈ y, ∀ b ∈ y, JVal.key a = JVal.key b)
        ∧ (calculateEntropy y = 0 ↔ ∀ a ∈ y, ∀ b ∈ y, JVal.key a = JVal.key b))
    ∧ (∀ y : List ℚ,
        (calculateMSE y = 0 ↔ ∀ a ∈ y, ∀ b ∈ y, a = b)
        ∧ (calculateMAE y = 0 ↔ ∀ a ∈ y, ∀ b ∈ y, a = b))
    ∧ (∀ y y' : List JVal, y.Perm y' →
        calculateGiniImpurity y = calculateGiniImpurity y'
        ∧ calculateEntropy y = calculateEntropy y')
    ∧ (∀ y y' : List ℚ, y.Perm y' →
        calculateMSE y = calculateMSE y' ∧ calculateMAE y = calculateMAE y') := by
  refine ⟨⟨?_, ?_, ?_, ?_⟩, ?_, ?_, ?_, ?_⟩
  · simp [calculateGiniImpurity]
  · simp [calculateEntropy]
  · simp [calculateMSE]
  · simp [calculateMAE]
  · exact fun y => ⟨gini_eq_zero_iff y, entropy_eq_zero_iff y⟩
  · exact fun y => ⟨mse_eq_zero_iff y, mae_eq_zero_iff y⟩
  · exact fun y y' h => ⟨gini_perm h, entropy_perm h⟩
  · exact fun y y' h => ⟨mse_perm h, mae_perm h⟩

/-- **C8** witness: the permutation-invariance clauses of `claim_C8`
applied at concrete two-element lists. -/
theorem claim_C8_witness :
    calculateGiniImpurity [JVal.num 1, JVal.num 2]
        = calculateGiniImpurity [JVal.num 2, JVal.num 1]
      ∧ calculateMSE [3, 4] = calculateMSE [4, 3] := by
  constructor
  · exact (claim_C8.2.2.2.1 [JVal.num 1, JVal.num 2] [JVal.num 2, JVal.num 1]
      (by decide)).1
  · exact (claim_C8.2.2.2.2 [3, 4] [4, 3] (by decide)).1

/-- **C8** counterexample to the claim as frozen: Gini impurity is `0` on
the two-element input `[1, "1"]` whose elements are not identical — the JS
record that tallies label counts coerces the number `1` and the string
`"1"` to the same key, so the code sees a single class. -/
theorem claim_C8_counterexample :
    calculateGiniImpurity [JVal.num 1, JVal.str "1"] = 0
      ∧ JVal.num 1 ≠ JVal.str "1" := by
  constructor
  · have h1 : toString (1 : ℚ) = "1" := rfl
    norm_num [calculateGiniImpurity, countsList, bumpCount, JVal.key, h1]
  · decide

theorem deserialize_serialize {P : Type} :
    ∀ n : Node P, deserializeNode (serializeNode n) = n
  | .mk f t sc v imp l r s leaf plv => by
    cases l with
    | none =>
      cases r with
      | none => simp [serializeNode, deserializeNode]
      | some rn =>
        simp [serializeNode, deserializeNode, deserialize_serialize rn]
    | some ln =>
      cases r with
      | none =>
        simp [serializeNode, deserializeNode, deserialize_serialize ln]
      | some rn =>
        simp [serializeNode, deserializeNode,
          deserialize_serialize ln, deserialize_serialize rn]

/-- **C1**.  Reloading a serialized model (`fromJSON ∘ toJSON`) yields a
model whose `predict` (and, for classifiers, `predictProba`) output is
identical to the original's, for every model that serializes successfully
(i.e. every fitted model) and every input matrix. -/
theorem claim_C1 :
    (∀ (m m' : ClassifierModel) (j : ClassifierJson) (X : List (List FeatVal)),
        m.toJSON = some j → classifierFromJSON j = some m' →
        m'.predict X = m.predict X ∧ m'.predictProba X = m.predictProba X)
    ∧ (∀ (m m' : RegressorModel) (j : RegressorJson) (X : List (List FeatVal)),
        m.toJSON = some j → regressorFromJSON j = some m' →
        m'.predict X = m.predict X) := by
  constructor
  · intro m m' j X htj hfj
    cases hroot : m.root with
    | none =>
      rw [ClassifierModel.toJSON, hroot] at htj
      cases htj
    | some r =>
      rw [ClassifierModel.toJSON, hroot] at htj
      have hj := (Option.some.injEq _ _).mp htj
      subst hj
      rw [classifierFromJSON, if_pos rfl] at hfj
      have hm' := (Option.some.injEq _ _).mp hfj
      subst hm'
      constructor
      · simp [ClassifierModel.predict, hroot, deserialize_serialize]
      · simp [ClassifierModel.predictProba, hroot, deserialize_serialize]
  · intro m m' j X htj hfj
    cases hroot : m.root with
    | none =>
      rw [RegressorModel.toJSON, hroot] at htj
      cases htj
    | some r =>
      rw [RegressorModel.toJSON, hroot] at htj
      have hj := (Option.some.injEq _ _).mp htj
      subst hj
      rw [regressorFromJSON, if_pos rfl] at hfj
      have hm' := (Option.some.injEq _ _).mp hfj
      subst hm'
      simp [RegressorModel.predict, hroot, deserialize_serialize]

/-- **C1** witness: the round trip applied to the concrete fitted
two-leaf classifier and one-leaf regressor. -/
theorem claim_C1_witness :
    exClassifier.toJSON = some exClassifierJson
    ∧ classifierFromJSON exClassifierJson = some exClassifierReloaded
    ∧ exClassifierReloaded.predict [[some (JVal.num 2)]]
        = exClassifier.predict [[some (JVal.num 2)]]
    ∧ exClassifierReloaded.predictProba [[some (JVal.num 2)]]
        = exClassifier.predictProba [[some (JVal.num 2)]]
    ∧ exRegressorReloaded.predict [[some (JVal.num 2)]]
        = exRegressor.predict [[some (JVal.num 2)]] := by
  refine ⟨rfl, rfl, ?_, ?_, ?_⟩
  · exact (claim_C1.1 exClassifier exClassifierReloaded exClassifierJson
      [[some (JVal.num 2)]] rfl rfl).1
  · exact (claim_C1.1 exClassifier exClassifierReloaded exClassifierJson
      [[some (JVal.num 2)]] rfl rfl).2
  · exact claim_C1.2 exRegressor exRegressorReloaded exRegressorJson
      [[some (JVal.num 2)]] rfl rfl

/-- **C5**.  During prediction, at a non-leaf node (no stored value) with
both children present, a valid split feature index and a sample missing
that feature's value, the sample is routed to the child with the strictly
larger training-sample count, and to the left child on a tie. -/
theorem claim_C5 {P : Type} (fi : ℕ) (t : Option ℚ) (sc : Option (List JVal))
    (imp : Option ℚ) (ln rn : Node P) (s : ℕ) (plv : Option P)
    (sample : List FeatVal) (hfi : fi < sample.length)
    (hmiss : sample.getD fi none = none) :
    (rn.samples < ln.samples →
      predictSample sample (Node.mk (some fi) t sc none imp (some ln) (some rn) s false plv)
        = predictSample sample ln)
    ∧ (ln.samples < rn.samples →
      predictSample sample (Node.mk (some fi) t sc none imp (some ln) (some rn) s false plv)
        = predictSample sample rn)
    ∧ (ln.samples = rn.samples →
      predictSample sample (Node.mk (some fi) t sc none imp (some ln) (some rn) s false plv)
        = predictSample sample ln) := by
  have hnle : ¬ sample.length ≤ fi := not_le.mpr hfi
  have hm2 : sample[fi]?.getD none = (none : FeatVal) := by
    simpa [List.getD] using hmiss
  refine ⟨fun h => ?_, fun h => ?_, fun h => ?_⟩
  · simp [predictSample, hm2, hnle, h]
  · have h2 : ¬ rn.samples < ln.samples := Nat.lt_asymm h
    simp [predictSample, hm2, hnle, h, h2]
  · simp [predictSample, hm2, hnle, h, lt_irrefl]

/-- **C5** witness: a sample whose only feature is missing, at the
concrete two-leaf split node whose children hold one training sample
each, routes to the left child (tie). -/
theorem claim_C5_witness :
    exLeafA.samples = exLeafB.samples
    ∧ predictSample [(none : FeatVal)]
        (Node.mk (some 0) (some (3 / 2)) none none (some (1 / 2))
          (some exLeafA) (some exLeafB) 2 false
          (some [("A", 1 / 2), ("B", 1 / 2)]))
      = predictSample [(none : FeatVal)] exLeafA := by
  refine ⟨rfl, ?_⟩
  exact (claim_C5 0 (some (3 / 2)) none (some (1 / 2)) exLeafA exLeafB 2
    (some [("A", 1 / 2), ("B", 1 / 2)]) [(none : FeatVal)]
    (by decide) rfl).2.2 rfl

/-! ### Pruning: structural lemmas -/

theorem wfNode_leaf {P : Type} (f : Option ℕ) (t : Option ℚ)
    (sc : Option (List JVal)) (v : Option P) (imp : Option ℚ)
    (l r : Option (Node P)) (s : ℕ) (plv : Option P) :
    wfNode (Node.mk f t sc v imp l r s true plv) = true := by
  rw [wfNode.eq_def]
  simp

theorem wfNode_internal_iff {P : Type} (f : Option ℕ) (t : Option ℚ)
    (sc : Option (List JVal)) (v : Option P) (imp : Option ℚ)
    (l r : Option (Node P)) (s : ℕ) (plv : Option P) :
    wfNode (Node.mk f t sc v imp l r s false plv) = true
      ↔ ∃ ln rn, l = some ln ∧ r = some rn
          ∧ wfNode ln = true ∧ wfNode rn = true := by
  rw [wfNode.eq_def]
  cases l with
  | none => simp
  | some ln =>
    cases r with
    | none => simp
    | some rn => simp [Bool.and_eq_true]

theorem wfNode_internal {P : Type} (f : Option ℕ) (t : Option ℚ)
    (sc : Option (List JVal)) (v : Option P) (imp : Option ℚ)
    (ln rn : Node P) (s : ℕ) (plv : Option P)
    (h1 : wfNode ln = true) (h2 : wfNode rn = true) :
    wfNode (Node.mk f t sc v imp (some ln) (some rn) s false plv) = true := by
  rw [wfNode.eq_def]
  simp [h1, h2]

theorem leafCount_leaf {P : Type} (f : Option ℕ) (t : Option ℚ)
    (sc : Option (List JVal)) (v : Option P) (imp : Option ℚ)
    (l r : Option (Node P)) (s : ℕ) (plv : Option P) :
    leafCount (Node.mk f t sc v imp l r s true plv) = 1 := by
  rw [leafCount.eq_def]
  simp

theorem leafCount_internal {P : Type} (f : Option ℕ) (t : Option ℚ)
    (sc : Option (List JVal)) (v : Option P) (imp : Option ℚ)
    (ln rn : Node P) (s : ℕ) (plv : Option P) :
    leafCount (Node.mk f t sc v imp (some ln) (some rn) s false plv)
      = leafCount ln + leafCount rn := by
  rw [leafCount.eq_def]
  simp

theorem leafImpSum_leaf {P : Type} (f : Option ℕ) (t : Option ℚ)
    (sc : Option (List JVal)) (v : Option P) (imp : Option ℚ)
    (l r : Option (Node P)) (s : ℕ) (plv : Option P) :
    leafImpSum (Node.mk f t sc v imp l r s true plv) = (imp.getD 0) * (s : ℚ) := by
  rw [leafImpSum.eq_def]
  simp

theorem leafImpSum_internal {P : Type} (f : Option ℕ) (t : Option ℚ)
    (sc : Option (List JVal)) (v : Option P) (imp : Option ℚ)
    (ln rn : Node P) (s : ℕ) (plv : Option P) :
    leafImpSum (Node.mk f t sc v imp (some ln) (some rn) s false plv)
      = leafImpSum ln + leafImpSum rn := by
  rw [leafImpSum.eq_def]
  simp

theorem leafCount_pos {P : Type} :
    ∀ n : Node P, wfNode n = true → 1 ≤ leafCount n
  | .mk f t sc v imp l r s leaf plv, hwf => by
    cases leaf with
    | true => rw [leafCount_leaf]
    | false =>
      obtain ⟨ln, rn, rfl, rfl, hwl, hwr⟩ :=
        (wfNode_internal_iff f t sc v imp l r s plv).mp hwf
      have h1 := leafCount_pos ln hwl
      rw [leafCount_internal]
      omega

theorem pruneRec_leaf {P : Type} (a : ℚ) (f : Option ℕ) (t : Option ℚ)
    (sc : Option (List JVal)) (v : Option P) (imp : Option ℚ)
    (l r : Option (Node P)) (s : ℕ) (plv : Option P) :
    pruneRec a (Node.mk f t sc v imp l r s true plv)
      = some (Node.mk f t sc v imp l r s true plv, (imp.getD 0) * (s : ℚ), 1) := by
  rw [pruneRec.eq_def]
  simp

theorem pruneRec_internal {P : Type} (a : ℚ) (f : Option ℕ) (t : Option ℚ)
    (sc : Option (List JVal)) (v : Option P) (imp : Option ℚ)
    (ln rn ln2 rn2 : Node P) (s : ℕ) (plv : Option P) (sl sr : ℚ) (cl cr : ℕ)
    (h1 : pruneRec a ln = some (ln2, sl, cl))
    (h2 : pruneRec a rn = some (rn2, sr, cr)) :
    pruneRec a (Node.mk f t sc v imp (some ln) (some rn) s false plv)
      = if cl + cr ≤ 1 then
          some (Node.mk f t sc v imp (some ln2) (some rn2) s false plv, sl + sr, cl + cr)
        else if ((imp.getD 0) * (s : ℚ) - (sl + sr)) / (((cl + cr : ℕ) : ℚ) - 1) ≤ a then
          some (Node.mk none none none plv imp none none s true plv,
            (imp.getD 0) * (s : ℚ), 1)
        else
          some (Node.mk f t sc v imp (some ln2) (some rn2) s false plv, sl + sr, cl + cr) := by
  rw [pruneRec.eq_def]
  simp only [h1, h2]
  simp

theorem pruneRec_wf {P : Type} (a : ℚ) :
    ∀ n : Node P, wfNode n = true →
      ∃ n2 S L, pruneRec a n = some (n2, S, L) ∧ wfNode n2 = true
        ∧ S = leafImpSum n2 ∧ L = leafCount n2 ∧ 1 ≤ L
  | .mk f t sc v imp l r s leaf plv, hwf => by
    cases leaf with
    | true =>
      refine ⟨Node.mk f t sc v imp l r s true plv, (imp.getD 0) * (s : ℚ), 1,
        pruneRec_leaf a f t sc v imp l r s plv, hwf, ?_, ?_, le_refl 1⟩
      · rw [leafImpSum_leaf]
      · rw [leafCount_leaf]
    | false =>
      obtain ⟨ln, rn, rfl, rfl, hwl, hwr⟩ :=
        (wfNode_internal_iff f t sc v imp l r s plv).mp hwf
      obtain ⟨ln2, sl, cl, hln, hwl2, hsl, hcl, hl1⟩ := pruneRec_wf a ln hwl
      obtain ⟨rn2, sr, cr, hrn, hwr2, hsr, hcr, hr1⟩ := pruneRec_wf a rn hwr
      rw [pruneRec_internal a f t sc v imp ln rn ln2 rn2 s plv sl sr cl cr hln hrn]
      have hge2 : ¬ cl + cr ≤ 1 := by omega
      rw [if_neg hge2]
      by_cases hg : ((imp.getD 0) * (s : ℚ) - (sl + sr)) / (((cl + cr : ℕ) : ℚ) - 1) ≤ a
      · rw [if_pos hg]
        refine ⟨Node.mk none none none plv imp none none s true plv,
          (imp.getD 0) * (s : ℚ), 1, rfl, wfNode_leaf _ _ _ _ _ _ _ _ _, ?_, ?_,
          le_refl 1⟩
        · rw [leafImpSum_leaf]
        · rw [leafCount_leaf]
      · rw [if_neg hg]
        refine ⟨Node.mk f t sc v imp (some ln2) (some rn2) s false plv,
          sl + sr, cl + cr, rfl, wfNode_internal _ _ _ _ _ _ _ _ _ hwl2 hwr2,
          ?_, ?_, by omega⟩
        · rw [leafImpSum_internal, hsl, hsr]
        · rw [leafCount_internal, hcl, hcr]

theorem pruneRec_leafCount_le {P : Type} (a : ℚ) :
    ∀ n : Node P, wfNode n = true →
      ∀ n2 S L, pruneRec a n = some (n2, S, L) → L ≤ leafCount n
  | .mk f t sc v imp l r s leaf plv, hwf => by
    cases leaf with
    | true =>
      intro n2 S L hp
      rw [pruneRec_leaf] at hp
      simp only [Option.some.injEq, Prod.mk.injEq] at hp
      rw [leafCount_leaf]
      omega
    | false =>
      obtain ⟨ln, rn, rfl, rfl, hwl, hwr⟩ :=
        (wfNode_internal_iff f t sc v imp l r s plv).mp hwf
      intro n2 S L hp
      obtain ⟨ln2, sl, cl, hln, _, _, _, hl1⟩ := pruneRec_wf a ln hwl
      obtain ⟨rn2, sr, cr, hrn, _, _, _, hr1⟩ := pruneRec_wf a rn hwr
      have hcl2 := pruneRec_leafCount_le a ln hwl ln2 sl cl hln
      have hcr2 := pruneRec_leafCount_le a rn hwr rn2 sr cr hrn
      rw [pruneRec_internal a f t sc v imp ln rn ln2 rn2 s plv sl sr cl cr hln hrn]
        at hp
      rw [leafCount_internal]
      by_cases h1 : cl + cr ≤ 1
      · rw [if_pos h1] at hp
        simp only [Option.some.injEq, Prod.mk.injEq] at hp
        omega
      · rw [if_neg h1] at hp
        by_cases hg : ((imp.getD 0) * (s : ℚ) - (sl + sr))
            / (((cl + cr : ℕ) : ℚ) - 1) ≤ a
        · rw [if_pos hg] at hp
          simp only [Option.some.injEq, Prod.mk.injEq] at hp
          have := leafCount_pos ln hwl
          omega
        · rw [if_neg hg] at hp
          simp only [Option.some.injEq, Prod.mk.injEq] at hp
          omega

/-- The four-invariant weakest-link induction: with `0 ≤ a1 ≤ a2`,
pruning at the larger alpha yields no more leaves, no smaller leaf
impurity total, and is better at cost level `a2` while the smaller-alpha
result is better at cost level `a1`. -/
theorem pruneRec_mono {P : Type} (a1 a2 : ℚ) (h0 : 0 ≤ a1) (h12 : a1 ≤ a2) :
    ∀ n : Node P, wfNode n = true →
      ∀ n1 S1 L1 n2 S2 L2,
        pruneRec a1 n = some (n1, S1, L1) →
        pruneRec a2 n = some (n2, S2, L2) →
        L2 ≤ L1 ∧ S1 ≤ S2
          ∧ S2 + a2 * (L2 : ℚ) ≤ S1 + a2 * (L1 : ℚ)
          ∧ S1 + a1 * (L1 : ℚ) ≤ S2 + a1 * (L2 : ℚ)
  | .mk f t sc v imp l r s leaf plv, hwf => by
    cases leaf with
    | true =>
      intro n1 S1 L1 n2 S2 L2 hp1 hp2
      rw [pruneRec_leaf] at hp1 hp2
      simp only [Option.some.injEq, Prod.mk.injEq] at hp1 hp2
      obtain ⟨-, hS1, hL1⟩ := hp1
      obtain ⟨-, hS2, hL2⟩ := hp2
      subst hS1; subst hS2
      refine ⟨by omega, le_refl _, ?_, ?_⟩ <;> rw [← hL1, ← hL2]
    | false =>
      obtain ⟨ln, rn, rfl, rfl, hwl, hwr⟩ :=
        (wfNode_internal_iff f t sc v imp l r s plv).mp hwf
      intro n1 S1 L1 n2 S2 L2 hp1 hp2
      obtain ⟨lnA, slA, clA, hlnA, _, _, _, hlA1⟩ := pruneRec_wf a1 ln hwl
      obtain ⟨rnA, srA, crA, hrnA, _, _, _, hrA1⟩ := pruneRec_wf a1 rn hwr
      obtain ⟨lnB, slB, clB, hlnB, _, _, _, hlB1⟩ := pruneRec_wf a2 ln hwl
      obtain ⟨rnB, srB, crB, hrnB, _, _, _, hrB1⟩ := pruneRec_wf a2 rn hwr
      obtain ⟨hLl, hSl, hVl, hWl⟩ :=
        pruneRec_mono a1 a2 h0 h12 ln hwl lnA slA clA lnB slB clB hlnA hlnB
      obtain ⟨hLr, hSr, hVr, hWr⟩ :=
        pruneRec_mono a1 a2 h0 h12 rn hwr rnA srA crA rnB srB crB hrnA hrnB
      rw [pruneRec_internal a1 f t sc v imp ln rn lnA rnA s plv slA srA clA crA
        hlnA hrnA] at hp1
      rw [pruneRec_internal a2 f t sc v imp ln rn lnB rnB s plv slB srB clB crB
        hlnB hrnB] at hp2
      have hgeA : ¬ clA + crA ≤ 1 := by omega
      have hgeB : ¬ clB + crB ≤ 1 := by omega
      rw [if_neg hgeA] at hp1
      rw [if_neg hgeB] at hp2
      set rt : ℚ := (imp.getD 0) * (s : ℚ) with hrt
      have hdenA : (0 : ℚ) < ((clA + crA : ℕ) : ℚ) - 1 := by
        have : (2 : ℚ) ≤ ((clA + crA : ℕ) : ℚ) := by exact_mod_cast (by omega : 2 ≤ clA + crA)
        linarith
      have hdenB : (0 : ℚ) < ((clB + crB : ℕ) : ℚ) - 1 := by
        have : (2 : ℚ) ≤ ((clB + crB : ℕ) : ℚ) := by exact_mod_cast (by omega : 2 ≤ clB + crB)
        linarith
      -- combined child invariants
      have hsumL : ((clB + crB : ℕ) : ℚ) ≤ ((clA + crA : ℕ) : ℚ) := by
        exact_mod_cast (by omega : clB + crB ≤ clA + crA)
      have hcombV : (slB + srB) + a2 * ((clB + crB : ℕ) : ℚ)
          ≤ (slA + srA) + a2 * ((clA + crA : ℕ) : ℚ) := by
        push_cast at hVl hVr ⊢
        linarith
      have hcombW : (slA + srA) + a1 * ((clA + crA : ℕ) : ℚ)
          ≤ (slB + srB) + a1 * ((clB + crB : ℕ) : ℚ) := by
        push_cast at hWl hWr ⊢
        linarith
      have hcombS : slA + srA ≤ slB + srB := by linarith
      by_cases hgA : (rt - (slA + srA)) / (((clA + crA : ℕ) : ℚ) - 1) ≤ a1
      · -- the a1 pass collapses this node
        rw [if_pos hgA] at hp1
        have hgA2 : rt - (slA + srA) ≤ a1 * (((clA + crA : ℕ) : ℚ) - 1) :=
          (div_le_iff₀ hdenA).mp hgA
        by_cases hgB : (rt - (slB + srB)) / (((clB + crB : ℕ) : ℚ) - 1) ≤ a2
        · -- both collapse
          rw [if_pos hgB] at hp2
          simp only [Option.some.injEq, Prod.mk.injEq] at hp1 hp2
          obtain ⟨-, hS1, hL1⟩ := hp1
          obtain ⟨-, hS2, hL2⟩ := hp2
          subst hS1; subst hS2
          refine ⟨by omega, le_refl _, ?_, ?_⟩ <;> rw [← hL1, ← hL2]
        · -- impossible: a1 collapses but a2 does not
          exfalso
          have hgB2 : a2 * (((clB + crB : ℕ) : ℚ) - 1) < rt - (slB + srB) := by
            have := (not_le.mp hgB)
            calc a2 * (((clB + crB : ℕ) : ℚ) - 1)
                < ((rt - (slB + srB)) / (((clB + crB : ℕ) : ℚ) - 1))
                    * (((clB + crB : ℕ) : ℚ) - 1) := by
                  apply mul_lt_mul_of_pos_right this hdenB
              _ = rt - (slB + srB) := div_mul_cancel₀ _ (ne_of_gt hdenB)
          have hk1 : rt ≤ (slA + srA) + a1 * ((clA + crA : ℕ) : ℚ) - a1 := by
            have := hgA2
            ring_nf at this ⊢
            linarith
          have hk2 : (slA + srA) + a1 * ((clA + crA : ℕ) : ℚ)
              ≤ (slB + srB) + a1 * ((clB + crB : ℕ) : ℚ) := hcombW
          have hk3 : (slB + srB) + a2 * (((clB + crB : ℕ) : ℚ) - 1) < rt := by
            linarith
          have hk4 : a1 * (((clB + crB : ℕ) : ℚ) - 1)
              ≤ a2 * (((clB + crB : ℕ) : ℚ) - 1) :=
            mul_le_mul_of_nonneg_right h12 (le_of_lt hdenB)
          ring_nf at hk1 hk2 hk3 hk4
          linarith
      · -- the a1 pass keeps the node
        rw [if_neg hgA] at hp1
        have hgA2 : a1 * (((clA + crA : ℕ) : ℚ) - 1) < rt - (slA + srA) := by
          have := (not_le.mp hgA)
          calc a1 * (((clA + crA : ℕ) : ℚ) - 1)
              < ((rt - (slA + srA)) / (((clA + crA : ℕ) : ℚ) - 1))
                  * (((clA + crA : ℕ) : ℚ) - 1) := by
                apply mul_lt_mul_of_pos_right this hdenA
            _ = rt - (slA + srA) := div_mul_cancel₀ _ (ne_of_gt hdenA)
        by_cases hgB : (rt - (slB + srB)) / (((clB + crB : ℕ) : ℚ) - 1) ≤ a2
        · -- a2 collapses, a1 keeps
          rw [if_pos hgB] at hp2
          simp only [Option.some.injEq, Prod.mk.injEq] at hp1 hp2
          obtain ⟨-, hS1, hL1⟩ := hp1
          obtain ⟨-, hS2, hL2⟩ := hp2
          subst hS1; subst hS2
          have hgB2 : rt - (slB + srB) ≤ a2 * (((clB + crB : ℕ) : ℚ) - 1) :=
            (div_le_iff₀ hdenB).mp hgB
          have hL1c : (L1 : ℚ) = ((clA + crA : ℕ) : ℚ) := by exact_mod_cast hL1.symm
          have hL2c : (L2 : ℚ) = 1 := by exact_mod_cast hL2.symm
          refine ⟨by omega, ?_, ?_, ?_⟩
          · -- S1 = slA + srA < rt = S2
            have h1 : 0 ≤ a1 * (((clA + crA : ℕ) : ℚ) - 1) :=
              mul_nonneg h0 (le_of_lt hdenA)
            linarith
          · rw [hL1c, hL2c]
            have := hcombV
            ring_nf at hgB2 this ⊢
            linarith
          · rw [hL1c, hL2c]
            ring_nf at hgA2 ⊢
            linarith
        · -- both keep
          rw [if_neg hgB] at hp2
          simp only [Option.some.injEq, Prod.mk.injEq] at hp1 hp2
          obtain ⟨-, hS1, hL1⟩ := hp1
          obtain ⟨-, hS2, hL2⟩ := hp2
          subst hS1; subst hS2
          have hL1c : (L1 : ℚ) = ((clA + crA : ℕ) : ℚ) := by exact_mod_cast hL1.symm
          have hL2c : (L2 : ℚ) = ((clB + crB : ℕ) : ℚ) := by exact_mod_cast hL2.symm
          refine ⟨by omega, hcombS, ?_, ?_⟩
          · rw [hL1c, hL2c]; exact hcombV
          · rw [hL1c, hL2c]; exact hcombW

/-! ### The builder: well-formedness and `ccpAlpha`-independence -/

theorem buildTreeF_wf {T P : Type} (tk : Task T P) (pr : Params) (nf : ℕ) :
    ∀ (fuel : ℕ) (X : List (List FeatVal)) (y : List T) (d : ℕ) (acc : List ℚ)
      (n : Node P) (acc2 : List ℚ),
      buildTreeF tk pr nf fuel X y d acc = some (n, acc2) → wfNode n = true := by
  intro fuel
  induction fuel with
  | zero =>
    intro X y d acc n acc2 h
    simp [buildTreeF] at h
  | succ f ih =>
    intro X y d acc n acc2 h
    simp only [buildTreeF] at h
    split at h
    · simp only [Option.some.injEq, Prod.mk.injEq] at h
      rw [← h.1]
      exact wfNode_leaf _ _ _ _ _ _ _ _ _
    · split at h
      · simp only [Option.some.injEq, Prod.mk.injEq] at h
        rw [← h.1]
        exact wfNode_leaf _ _ _ _ _ _ _ _ _
      · split at h
        · simp only [Option.some.injEq, Prod.mk.injEq] at h
          rw [← h.1]
          exact wfNode_leaf _ _ _ _ _ _ _ _ _
        · split at h
          · simp only [Option.some.injEq, Prod.mk.injEq] at h
            rw [← h.1]
            exact wfNode_leaf _ _ _ _ _ _ _ _ _
          · split at h
            · exact absurd h (by simp)
            · rename_i lres hlres
              split at h
              · exact absurd h (by simp)
              · rename_i rres hrres
                simp only [Option.some.injEq, Prod.mk.injEq] at h
                rw [← h.1]
                exact wfNode_internal _ _ _ _ _ _ _ _ _
                  (ih _ _ _ _ _ _ hlres) (ih _ _ _ _ _ _ hrres)

theorem findBestSplit_alpha {T P : Type} (tk : Task T P) (md : Option ℕ)
    (mss msl : ℕ) (mid : ℚ) (fts : Option (List FeatType)) (a b : ℚ) (nf : ℕ)
    (X : List (List FeatVal)) (y : List T) :
    findBestSplit tk ⟨md, mss, msl, mid, fts, a⟩ X y nf
      = findBestSplit tk ⟨md, mss, msl, mid, fts, b⟩ X y nf := rfl

/-- The builder never reads `ccpAlpha`. -/
theorem buildTreeF_alpha {T P : Type} (tk : Task T P) (md : Option ℕ)
    (mss msl : ℕ) (mid : ℚ) (fts : Option (List FeatType)) (a b : ℚ) (nf : ℕ) :
    ∀ (fuel : ℕ) (X : List (List FeatVal)) (y : List T) (d : ℕ) (acc : List ℚ),
      buildTreeF tk ⟨md, mss, msl, mid, fts, a⟩ nf fuel X y d acc
        = buildTreeF tk ⟨md, mss, msl, mid, fts, b⟩ nf fuel X y d acc := by
  intro fuel
  induction fuel with
  | zero => intro X y d acc; rfl
  | succ f ih =>
    intro X y d acc
    simp only [buildTreeF, findBestSplit_alpha tk md mss msl mid fts a b, ih]

/-- Unfolding characterization of a successful `fitTree`. -/
theorem fitTree_cases {T P : Type} (tk : Task T P) (pr : Params)
    (X : List (List FeatVal)) (y : List T) (fr : FitResult P)
    (h : fitTree tk pr X y = some fr) :
    ∃ fts root acc,
      (match pr.featureTypes with
        | some fts0 => fts = fts0 ∧ ¬ fts0.length ≠ (X.headD []).length
        | none => fts = List.replicate (X.headD []).length FeatType.numerical)
      ∧ buildTreeF tk { pr with featureTypes := some fts } (X.headD []).length
          (X.length + 1) X y 0 (List.replicate (X.headD []).length 0) = some (root, acc)
      ∧ fr.importances = acc ∧ fr.nFeatures = (X.headD []).length
      ∧ fr.featureTypes = fts
      ∧ ((0 < pr.ccpAlpha ∧ root.isLeaf = false) →
          ∃ S L, pruneRec pr.ccpAlpha root = some (fr.root, S, L))
      ∧ (¬ (0 < pr.ccpAlpha ∧ root.isLeaf = false) → fr.root = root) := by
  simp only [fitTree] at h
  split at h
  · cases h
  · split at h
    · cases h
    · split at h
      · cases h
      · rename_i ftsv hfts
        split at h
        · cases h
        · rename_i broot bacc hbuild
          refine ⟨ftsv, broot, bacc, ?_, ?_, ?_⟩
          · split at hfts
            · rename_i fts0 hfts0
              split at hfts
              · cases hfts
              · rename_i hlen
                simp only [Option.some.injEq] at hfts
                exact ⟨hfts.symm, hlen⟩
            · rename_i hfts0
              simp only [Option.some.injEq] at hfts
              exact hfts.symm
          · exact hbuild
          · split at h
            · rename_i hprune
              split at h
              · cases h
              · rename_i root2 S L hpr
                simp only [Option.some.injEq] at h
                rw [← h]
                exact ⟨rfl, rfl, rfl, fun _ => ⟨S, L, by rw [hpr]⟩,
                  fun hc => absurd hprune hc⟩
            · rename_i hprune
              simp only [Option.some.injEq] at h
              rw [← h]
              exact ⟨rfl, rfl, rfl, fun hc => absurd hc hprune, fun _ => rfl⟩

/-- **C4**.  For a fixed training set and fixed remaining hyperparameters,
fitting with a larger `ccpAlpha` (both nonnegative) never yields a tree
with more leaves. -/
theorem claim_C4 {T P : Type} (tk : Task T P) (md : Option ℕ) (mss msl : ℕ)
    (mid : ℚ) (fts : Option (List FeatType)) (a1 a2 : ℚ)
    (h0 : 0 ≤ a1) (h12 : a1 ≤ a2)
    (X : List (List FeatVal)) (y : List T) (fr1 fr2 : FitResult P)
    (hf1 : fitTree tk ⟨md, mss, msl, mid, fts, a1⟩ X y = some fr1)
    (hf2 : fitTree tk ⟨md, mss, msl, mid, fts, a2⟩ X y = some fr2) :
    leafCount fr2.root ≤ leafCount fr1.root := by
  obtain ⟨F1, root1, acc1, hfts1, hb1, _, _, _, hprY1, hprN1⟩ :=
    fitTree_cases _ _ _ _ _ hf1
  obtain ⟨F2, root2, acc2, hfts2, hb2, _, _, _, hprY2, hprN2⟩ :=
    fitTree_cases _ _ _ _ _ hf2
  have hF : F1 = F2 := by
    cases fts with
    | none =>
      simp only at hfts1 hfts2
      rw [hfts1, hfts2]
    | some fl =>
      simp only at hfts1 hfts2
      rw [hfts1.1, hfts2.1]
  subst hF
  have hb2' : buildTreeF tk ⟨md, mss, msl, mid, some F1, a1⟩ (X.headD []).length
      (X.length + 1) X y 0 (List.replicate (X.headD []).length 0)
        = some (root2, acc2) := by
    rw [buildTreeF_alpha tk md mss msl mid (some F1) a1 a2]
    exact hb2
  have hb1' : buildTreeF tk ⟨md, mss, msl, mid, some F1, a1⟩ (X.headD []).length
      (X.length + 1) X y 0 (List.replicate (X.headD []).length 0)
        = some (root1, acc1) := hb1
  rw [hb1'] at hb2'
  simp only [Option.some.injEq, Prod.mk.injEq] at hb2'
  obtain ⟨hroot, -⟩ := hb2'
  subst hroot
  have hwf : wfNode root1 = true := buildTreeF_wf _ _ _ _ _ _ _ _ _ _ hb1'
  by_cases hl : root1.isLeaf = false
  · by_cases ha1 : 0 < a1
    · have ha2 : 0 < a2 := lt_of_lt_of_le ha1 h12
      obtain ⟨S1, L1, hp1⟩ := hprY1 ⟨ha1, hl⟩
      obtain ⟨S2, L2, hp2⟩ := hprY2 ⟨ha2, hl⟩
      obtain ⟨n1w, S1w, L1w, hp1w, _, _, hc1w, _⟩ := pruneRec_wf a1 root1 hwf
      obtain ⟨n2w, S2w, L2w, hp2w, _, _, hc2w, _⟩ := pruneRec_wf a2 root1 hwf
      rw [hp1] at hp1w
      rw [hp2] at hp2w
      simp only [Option.some.injEq, Prod.mk.injEq] at hp1w hp2w
      obtain ⟨hn1, hS1, hL1⟩ := hp1w
      obtain ⟨hn2, hS2, hL2⟩ := hp2w
      have hmono := pruneRec_mono a1 a2 h0 h12 root1 hwf
        fr1.root S1 L1 fr2.root S2 L2 hp1 hp2
      have hlc1 : leafCount fr1.root = L1 := by rw [hL1, hn1, ← hc1w]
      have hlc2 : leafCount fr2.root = L2 := by rw [hL2, hn2, ← hc2w]
      rw [hlc1, hlc2]
      exact hmono.1
    · have hr1 : fr1.root = root1 := hprN1 (fun hc => ha1 hc.1)
      by_cases ha2 : 0 < a2
      · obtain ⟨S2, L2, hp2⟩ := hprY2 ⟨ha2, hl⟩
        obtain ⟨n2w, S2w, L2w, hp2w, _, _, hc2w, _⟩ := pruneRec_wf a2 root1 hwf
        rw [hp2] at hp2w
        simp only [Option.some.injEq, Prod.mk.injEq] at hp2w
        obtain ⟨hn2, hS2, hL2⟩ := hp2w
        have hle := pruneRec_leafCount_le a2 root1 hwf fr2.root S2 L2 hp2
        have hlc2 : leafCount fr2.root = L2 := by rw [hL2, hn2, ← hc2w]
        rw [hlc2, hr1]
        exact hle
      · have hr2 : fr2.root = root1 := hprN2 (fun hc => ha2 hc.1)
        rw [hr1, hr2]
  · have hr1 : fr1.root = root1 := hprN1 (fun hc => hl hc.2)
    have hr2 : fr2.root = root1 := hprN2 (fun hc => hl hc.2)
    rw [hr1, hr2]

/-! ### Concrete evaluations shared by witnesses -/

theorem evalSortClassesAB :
    sortClasses [JVal.str "A", JVal.str "B"] = [JVal.str "A", JVal.str "B"] := by
  norm_num [sortClasses, dedupFirst, List.insertionSort, List.orderedInsert, JVal.key]
  decide

theorem taskABimp :
    (classifierTask [JVal.str "A", JVal.str "B"]).impurity
      = calculateGiniImpurity := rfl

theorem taskABlv :
    (classifierTask [JVal.str "A", JVal.str "B"]).leafValue
      = calculateLeafValue := rfl

theorem strABne : (("A" : String) = "B") = False := by decide

theorem strBAne : (("B" : String) = "A") = False := by decide

theorem evalGiniAB :
    calculateGiniImpurity [JVal.str "A", JVal.str "B"] = 1 / 2 := by
  norm_num [calculateGiniImpurity, countsList, bumpCount, JVal.key, strABne, strBAne]

theorem evalGiniA : calculateGiniImpurity [JVal.str "A"] = 0 := by
  norm_num [calculateGiniImpurity, countsList, bumpCount, JVal.key, strABne, strBAne]

theorem evalGiniB : calculateGiniImpurity [JVal.str "B"] = 0 := by
  norm_num [calculateGiniImpurity, countsList, bumpCount, JVal.key, strABne, strBAne]

theorem evalLvAB :
    calculateLeafValue [JVal.str "A", JVal.str "B"]
      = [("A", 1 / 2), ("B", 1 / 2)] := by
  norm_num [calculateLeafValue, countsList, bumpCount, JVal.key, strABne, strBAne]

theorem evalLvA : calculateLeafValue [JVal.str "A"] = [("A", 1)] := by
  norm_num [calculateLeafValue, countsList, bumpCount, JVal.key, strABne, strBAne]

theorem evalLvB : calculateLeafValue [JVal.str "B"] = [("B", 1)] := by
  norm_num [calculateLeafValue, countsList, bumpCount, JVal.key, strABne, strBAne]

theorem evalFeatureColumnAB :
    featureColumn [[some (JVal.num 1)], [some (JVal.num 2)]]
        [JVal.str "A", JVal.str "B"] 0
      = ([(JVal.num 1, JVal.str "A", 0), (JVal.num 2, JVal.str "B", 1)], []) := by
  norm_num [featureColumn, List.enum, List.enumFrom, List.filterMap_cons,
    List.filter_cons]

theorem evalNumCandsAB :
    numericCands (classifierTask [JVal.str "A", JVal.str "B"]) 1
        [(JVal.num 1, JVal.str "A", 0), (JVal.num 2, JVal.str "B", 1)]
      = [⟨some (3 / 2), none, [0], [1], 1 / 2⟩] := by
  norm_num [numericCands, dedupFirst, List.insertionSort, List.orderedInsert,
    toNumber, candGain, taskABimp, evalGiniAB, evalGiniA, evalGiniB,
    List.filterMap_cons, List.filter_cons]

theorem evalFindBestAB (a : ℚ) :
    findBestSplit (classifierTask [JVal.str "A", JVal.str "B"])
        ⟨none, 2, 1, 0, some [FeatType.numerical], a⟩
        [[some (JVal.num 1)], [some (JVal.num 2)]]
        [JVal.str "A", JVal.str "B"] 1
      = some ⟨0, some (3 / 2), none, 1 / 2, [0], [1]⟩ := by
  norm_num [findBestSplit, List.range_succ, evalFeatureColumnAB, featTypeAt,
    evalNumCandsAB, bestCand, distributeMissing]
  simp

theorem evalBuildAB (a : ℚ) :
    buildTreeF (classifierTask [JVal.str "A", JVal.str "B"])
        ⟨none, 2, 1, 0, some [FeatType.numerical], a⟩ 1 3
        [[some (JVal.num 1)], [some (JVal.num 2)]]
        [JVal.str "A", JVal.str "B"] 0 [0]
      = some (exRootC, [1 / 2]) := by
  norm_num [buildTreeF, evalFindBestAB, taskABimp, taskABlv, evalGiniAB,
    evalGiniA, evalGiniB, evalLvAB, evalLvA, evalLvB, accumulateImportance,
    addAt, depthStop, exRootC, exLeafA, exLeafB]

theorem evalFitAB0 :
    fitTree (classifierTask [JVal.str "A", JVal.str "B"])
        ⟨none, 2, 1, 0, none, 0⟩
        [[some (JVal.num 1)], [some (JVal.num 2)]]
        [JVal.str "A", JVal.str "B"]
      = some ⟨exRootC, [1 / 2], 1, [FeatType.numerical]⟩ := by
  norm_num [fitTree, evalBuildAB]

theorem evalPruneExRootC :
    pruneRec 1 exRootC = some (exRootCPruned, 1, 1) := by
  rw [show exRootC = Node.mk (some 0) (some (3 / 2)) none none (some (1 / 2))
      (some exLeafA) (some exLeafB) 2 false
      (some [("A", 1 / 2), ("B", 1 / 2)]) from rfl]
  rw [pruneRec_internal 1 (some 0) (some (3 / 2)) none none (some (1 / 2))
    exLeafA exLeafB exLeafA exLeafB 2 (some [("A", 1 / 2), ("B", 1 / 2)]) 0 0 1 1
    (by rw [show exLeafA = Node.mk none none none (some [("A", 1)]) (some 0)
        none none 1 true (some [("A", 1)]) from rfl, pruneRec_leaf]; norm_num)
    (by rw [show exLeafB = Node.mk none none none (some [("B", 1)]) (some 0)
        none none 1 true (some [("B", 1)]) from rfl, pruneRec_leaf]; norm_num)]
  norm_num [exRootCPruned]

theorem evalFitAB1 :
    fitTree (classifierTask [JVal.str "A", JVal.str "B"])
        ⟨none, 2, 1, 0, none, 1⟩
        [[some (JVal.num 1)], [some (JVal.num 2)]]
        [JVal.str "A", JVal.str "B"]
      = some ⟨exRootCPruned, [1 / 2], 1, [FeatType.numerical]⟩ := by
  have hb := evalBuildAB 1
  norm_num [fitTree, hb, evalPruneExRootC,
    (show exRootC.isLeaf = false from rfl)]

/-- **C4** witness: the two concrete fits (`ccpAlpha` 0 and 1) on the same
two-sample training set, with the pruned tree's leaf count bounded by the
unpruned one's via `claim_C4`. -/
theorem claim_C4_witness :
    fitTree (classifierTask [JVal.str "A", JVal.str "B"])
        ⟨none, 2, 1, 0, none, 0⟩
        [[some (JVal.num 1)], [some (JVal.num 2)]]
        [JVal.str "A", JVal.str "B"]
      = some ⟨exRootC, [1 / 2], 1, [FeatType.numerical]⟩
    ∧ fitTree (classifierTask [JVal.str "A", JVal.str "B"])
        ⟨none, 2, 1, 0, none, 1⟩
        [[some (JVal.num 1)], [some (JVal.num 2)]]
        [JVal.str "A", JVal.str "B"]
      = some ⟨exRootCPruned, [1 / 2], 1, [FeatType.numerical]⟩
    ∧ leafCount (⟨exRootCPruned, [1 / 2], 1, [FeatType.numerical]⟩
        : FitResult ProbMap).root
      ≤ leafCount (⟨exRootC, [1 / 2], 1, [FeatType.numerical]⟩
        : FitResult ProbMap).root := by
  refine ⟨evalFitAB0, evalFitAB1, ?_⟩
  exact claim_C4 (classifierTask [JVal.str "A", JVal.str "B"]) none 2 1 0 none
    0 1 (by norm_num) (by norm_num)
    [[some (JVal.num 1)], [some (JVal.num 2)]]
    [JVal.str "A", JVal.str "B"] _ _ evalFitAB0 evalFitAB1

/-- **C3**.  `fit` skips the pruning pass entirely when `ccpAlpha = 0` (and
applies it exactly when `ccpAlpha > 0` and the built root is internal); the
pass itself matches the reference definition: a leaf returns
`(impurity × samples, 1)` and stays untouched; an internal node whose
children's combined pruned leaf count is ≤ 1 propagates the children's
totals unchanged; otherwise it collapses into a leaf carrying
`potentialLeafValue` (split fields and children cleared) returning
`(R_t, 1)` exactly when `g_t ≤ ccpAlpha`, else keeps the node with its
pruned children and returns the children's combined totals — and the
returned totals are precisely the leaf statistics of the returned tree. -/
theorem claim_C3 :
    (∀ {T P : Type} (tk : Task T P) (pr : Params) (X : List (List FeatVal))
        (y : List T) (fr : FitResult P),
        pr.ccpAlpha = 0 → fitTree tk pr X y = some fr →
        ∃ fts root acc,
          buildTreeF tk { pr with featureTypes := some fts } (X.headD []).length
              (X.length + 1) X y 0 (List.replicate (X.headD []).length 0)
            = some (root, acc)
          ∧ fr.root = root)
    ∧ (∀ {T P : Type} (tk : Task T P) (pr : Params) (X : List (List FeatVal))
        (y : List T) (fr : FitResult P),
        0 < pr.ccpAlpha → fitTree tk pr X y = some fr →
        ∃ fts root acc,
          buildTreeF tk { pr with featureTypes := some fts } (X.headD []).length
              (X.length + 1) X y 0 (List.replicate (X.headD []).length 0)
            = some (root, acc)
          ∧ (root.isLeaf = false →
              ∃ S L, pruneRec pr.ccpAlpha root = some (fr.root, S, L))
          ∧ (root.isLeaf = true → fr.root = root))
    ∧ (∀ {P : Type} (a : ℚ) (f : Option ℕ) (t : Option ℚ)
        (sc : Option (List JVal)) (v : Option P) (imp : Option ℚ)
        (l r : Option (Node P)) (s : ℕ) (plv : Option P),
        pruneRec a (Node.mk f t sc v imp l r s true plv)
          = some (Node.mk f t sc v imp l r s true plv, (imp.getD 0) * (s : ℚ), 1))
    ∧ (∀ {P : Type} (a : ℚ) (f : Option ℕ) (t : Option ℚ)
        (sc : Option (List JVal)) (v : Option P) (imp : Option ℚ)
        (ln rn ln2 rn2 : Node P) (s : ℕ) (plv : Option P) (sl sr : ℚ) (cl cr : ℕ),
        pruneRec a ln = some (ln2, sl, cl) →
        pruneRec a rn = some (rn2, sr, cr) →
        pruneRec a (Node.mk f t sc v imp (some ln) (some rn) s false plv)
          = if cl + cr ≤ 1 then
              some (Node.mk f t sc v imp (some ln2) (some rn2) s false plv,
                sl + sr, cl + cr)
            else if ((imp.getD 0) * (s : ℚ) - (sl + sr))
                / (((cl + cr : ℕ) : ℚ) - 1) ≤ a then
              some (Node.mk none none none plv imp none none s true plv,
                (imp.getD 0) * (s : ℚ), 1)
            else
              some (Node.mk f t sc v imp (some ln2) (some rn2) s false plv,
                sl + sr, cl + cr))
    ∧ (∀ {P : Type} (a : ℚ) (n : Node P), wfNode n = true →
        ∀ n2 S L, pruneRec a n = some (n2, S, L) →
          S = leafImpSum n2 ∧ L = leafCount n2) := by
  refine ⟨?_, ?_, ?_, ?_, ?_⟩
  · intro T P tk pr X y fr ha hf
    obtain ⟨fts, root, acc, _, hb, _, _, _, _, hprN⟩ := fitTree_cases _ _ _ _ _ hf
    exact ⟨fts, root, acc, hb, hprN (fun hc => by rw [ha] at hc; exact lt_irrefl 0 hc.1)⟩
  · intro T P tk pr X y fr ha hf
    obtain ⟨fts, root, acc, _, hb, _, _, _, hprY, hprN⟩ := fitTree_cases _ _ _ _ _ hf
    refine ⟨fts, root, acc, hb, fun hleaf => hprY ⟨ha, hleaf⟩, fun hleaf => ?_⟩
    exact hprN (fun hc => by rw [hleaf] at hc; cases hc.2)
  · intro P a f t sc v imp l r s plv
    exact pruneRec_leaf a f t sc v imp l r s plv
  · intro P a f t sc v imp ln rn ln2 rn2 s plv sl sr cl cr h1 h2
    exact pruneRec_internal a f t sc v imp ln rn ln2 rn2 s plv sl sr cl cr h1 h2
  · intro P a n hwf n2 S L hp
    obtain ⟨n2w, Sw, Lw, hpw, _, hsw, hcw, _⟩ := pruneRec_wf a n hwf
    rw [hp] at hpw
    simp only [Option.some.injEq, Prod.mk.injEq] at hpw
    obtain ⟨hn, hS, hL⟩ := hpw
    constructor
    · rw [hS, hsw, hn]
    · rw [hL, hcw, hn]

/-- **C3** witness: the concrete pruning of the two-leaf tree `exRootC`
at `ccpAlpha = 1` (the node collapses since `g_t = 1 ≤ 1`), together with
the returned totals matching the collapsed tree's leaf statistics, and the
zero-alpha fit keeping the built root unchanged. -/
theorem claim_C3_witness :
    pruneRec 1 exRootC = some (exRootCPruned, 1, 1)
      ∧ (1 : ℚ) = leafImpSum exRootCPruned ∧ 1 = leafCount exRootCPruned := by
  refine ⟨evalPruneExRootC, ?_⟩
  exact claim_C3.2.2.2.2 1 exRootC
    (by simp [wfNode.eq_def, exRootC, exLeafA, exLeafB])
    exRootCPruned 1 1 evalPruneExRootC

/-! ### Split search: structure of the returned split (C2, C10) -/

theorem pairwise_zip_tail {α : Type} {r : α → α → Prop} :
    ∀ {l : List α}, l.Pairwise r → ∀ p ∈ l.zip l.tail, r p.1 p.2 := by
  intro l
  induction l with
  | nil => intro _ p hp; cases hp
  | cons x t ih =>
    intro hpw p hp
    cases t with
    | nil => cases hp
    | cons y t2 =>
      rw [show (x :: y :: t2).tail = y :: t2 from rfl,
        show (x :: y :: t2).zip (y :: t2) = (x, y) :: ((y :: t2).zip t2) from rfl] at hp
      rcases List.mem_cons.mp hp with rfl | hp2
      · exact (List.pairwise_cons.mp hpw).1 y (List.mem_cons_self y t2)
      · have : ((y :: t2).zip ((y :: t2).tail)) = (y :: t2).zip t2 := rfl
        exact ih (List.pairwise_cons.mp hpw).2 p (by rw [this]; exact hp2)

theorem uniq_pairwise_lt (vals : List ℚ) :
    (List.insertionSort (fun a b => a ≤ b) (dedupFirst vals)).Pairwise
      (fun a b => a < b) := by
  have hs : (List.insertionSort (fun a b => a ≤ b) (dedupFirst vals)).Pairwise
      (fun a b => a ≤ b) := List.sorted_insertionSort _ _
  have hn : (List.insertionSort (fun a b => a ≤ b) (dedupFirst vals)).Nodup :=
    ((List.perm_insertionSort _ _).nodup_iff).mpr (nodup_dedupFirst vals)
  exact (List.Pairwise.and_mem.mp hs).imp₂ (fun a b h1 h2 => lt_of_le_of_ne h1.2.2 h2)
    hn

theorem mem_uniq_values (vals : List ℚ) (a : ℚ)
    (h : a ∈ List.insertionSort (fun a b => a ≤ b) (dedupFirst vals)) :
    a ∈ vals :=
  mem_dedupFirst.mp ((List.perm_insertionSort _ _).mem_iff.mp h)

theorem filter_not_decide {α : Type} (p : α → Prop) [DecidablePred p] (l : List α) :
    l.filter (fun a => ¬ p a) = l.filter (fun a => ! decide (p a)) := by
  apply List.filter_congr
  intro a _
  simp [decide_not]

theorem filters_perm_map {α β : Type} (p : α → Prop) [DecidablePred p]
    (l : List α) (f : α → β) :
    ((l.filter (fun a => p a)).map f ++ (l.filter (fun a => ¬ p a)).map f).Perm
      (l.map f) := by
  rw [← List.map_append]
  refine List.Perm.map f ?_
  rw [filter_not_decide]
  exact List.filter_append_perm _ l

theorem numericCands_sides {T P : Type} (tk : Task T P) (msl : ℕ)
    (nm : List (JVal × T × ℕ)) :
    ∀ c ∈ numericCands tk msl nm,
      c.lIdx ≠ [] ∧ c.rIdx ≠ []
        ∧ (c.lIdx ++ c.rIdx).Perm (nm.map (fun d => d.2.2)) := by
  intro c hc
  simp only [numericCands] at hc
  obtain ⟨ab, hab, hfc⟩ := List.mem_filterMap.mp hc
  split at hfc
  · cases hfc
  · simp only [Option.some.injEq] at hfc
    subst hfc
    have hlt : ab.1 < ab.2 := pairwise_zip_tail (uniq_pairwise_lt _) ab hab
    obtain ⟨hab1, hab2⟩ := List.of_mem_zip (show (ab.1, ab.2) ∈ _ from hab)
    have ha1 : ab.1 ∈ nm.map (fun d => toNumber d.1) := mem_uniq_values _ _ hab1
    have ha2 : ab.2 ∈ nm.map (fun d => toNumber d.1) :=
      mem_uniq_values _ _ (List.mem_of_mem_tail hab2)
    obtain ⟨da, hda, hva⟩ := List.mem_map.mp ha1
    obtain ⟨db, hdb, hvb⟩ := List.mem_map.mp ha2
    have hXa : toNumber da.1 ≤ (ab.1 + ab.2) / 2 := by rw [hva]; linarith
    have hXb : ¬ toNumber db.1 ≤ (ab.1 + ab.2) / 2 := by rw [hvb]; push_neg; linarith
    refine ⟨?_, ?_, ?_⟩
    · exact List.ne_nil_of_mem (List.mem_map_of_mem _
        (List.mem_filter.mpr ⟨hda, by simpa using hXa⟩))
    · exact List.ne_nil_of_mem (List.mem_map_of_mem _
        (List.mem_filter.mpr ⟨hdb, by simpa using hXb⟩))
    · exact filters_perm_map (fun d => toNumber d.1 ≤ (ab.1 + ab.2) / 2) nm _

theorem categoricalCands_sides {T P : Type} (tk : Task T P) (msl : ℕ)
    (nm : List (JVal × T × ℕ)) :
    ∀ c ∈ categoricalCands tk msl nm,
      c.lIdx ≠ [] ∧ c.rIdx ≠ []
        ∧ (c.lIdx ++ c.rIdx).Perm (nm.map (fun d => d.2.2)) := by
  intro c hc
  simp only [categoricalCands] at hc
  obtain ⟨lcs, hlcs, hfc⟩ := List.mem_filterMap.mp hc
  split at hfc
  · cases hfc
  · split at hfc
    · cases hfc
    · rename_i hsz hguard
      simp only [Option.some.injEq] at hfc
      subst hfc
      push_neg at hguard
      obtain ⟨-, -, hL0, hR0⟩ := hguard
      refine ⟨?_, ?_, ?_⟩
      · intro hnil
        have hnil2 : (nm.filter (fun d => d.1 ∈ lcs)).map (fun d => d.2.2) = [] :=
          hnil
        apply hL0
        have := congrArg List.length hnil2
        rw [List.length_map] at this
        exact this
      · intro hnil
        have hnil2 : (nm.filter (fun d => ¬ d.1 ∈ lcs)).map (fun d => d.2.2) = [] :=
          hnil
        apply hR0
        have := congrArg List.length hnil2
        rw [List.length_map] at this
        exact this
      · exact filters_perm_map (fun d => d.1 ∈ lcs) nm _

theorem foldl_option_invariant {α β : Type} (step : Option β → α → Option β)
    (Q : β → Prop)
    (hstep : ∀ acc a, (∀ s, acc = some s → Q s) → ∀ s, step acc a = some s → Q s) :
    ∀ (l : List α) (acc : Option β), (∀ s, acc = some s → Q s) →
      ∀ s, l.foldl step acc = some s → Q s := by
  intro l
  induction l with
  | nil => intro acc hacc s h; exact hacc s h
  | cons a t ih =>
    intro acc hacc s h
    exact ih (step acc a) (hstep acc a hacc) s h

theorem bestCand_foldl_mem : ∀ (l : List Cand) (acc : Option Cand) (c : Cand),
    l.foldl (fun acc c =>
      match acc with
      | none => some c
      | some b => if b.gain < c.gain then some c else acc) acc = some c →
    c ∈ l ∨ acc = some c := by
  intro l
  induction l with
  | nil => intro acc c h; exact Or.inr h
  | cons a t ih =>
    intro acc c h
    rcases ih _ c h with hmem | hstep
    · exact Or.inl (List.mem_cons_of_mem a hmem)
    · match acc with
      | none =>
        have hstep2 : a = c := Option.some.inj hstep
        exact Or.inl (hstep2 ▸ List.mem_cons_self a t)
      | some b =>
        have hstep2 : (if b.gain < a.gain then some a else some b) = some c := hstep
        by_cases hg : b.gain < a.gain
        · rw [if_pos hg, Option.some.injEq] at hstep2
          exact Or.inl (hstep2 ▸ List.mem_cons_self a t)
        · rw [if_neg hg] at hstep2
          exact Or.inr hstep2

theorem bestCand_mem (cands : List Cand) (c : Cand)
    (h : bestCand cands = some c) : c ∈ cands := by
  rcases bestCand_foldl_mem cands none c h with hm | hn
  · exact hm
  · cases hn

theorem findBestSplit_ok {T P : Type} (tk : Task T P) (pr : Params)
    (X : List (List FeatVal)) (y : List T) (nF : ℕ) (sp : Split)
    (h : findBestSplit tk pr X y nF = some sp) :
    ∃ L R, L ≠ [] ∧ R ≠ []
      ∧ (L ++ R).Perm
          ((featureColumn X y sp.featureIndex).1.map (fun d => d.2.2))
      ∧ (sp.leftIndices, sp.rightIndices)
          = distributeMissing L R (featureColumn X y sp.featureIndex).2 := by
  refine foldl_option_invariant _
    (fun s => ∃ L R, L ≠ [] ∧ R ≠ []
      ∧ (L ++ R).Perm
          ((featureColumn X y s.featureIndex).1.map (fun d => d.2.2))
      ∧ (s.leftIndices, s.rightIndices)
          = distributeMissing L R (featureColumn X y s.featureIndex).2)
    ?_ (List.range nF) none (fun s hs => by cases hs) sp h
  intro acc fd hacc s hs
  dsimp only at hs
  split at hs
  · exact hacc s hs
  · split at hs
    · exact hacc s hs
    · rename_i c heq
      split at hs
      · rename_i hbetter
        simp only [Option.some.injEq] at hs
        have hcands : c.lIdx ≠ [] ∧ c.rIdx ≠ []
            ∧ (c.lIdx ++ c.rIdx).Perm
                ((featureColumn X y fd).1.map (fun d => d.2.2)) := by
          rcases hft : featTypeAt pr.featureTypes fd with _ | _
          · rw [hft] at heq
            exact numericCands_sides tk pr.minSamplesLeaf _ c (bestCand_mem _ c heq)
          · rw [hft] at heq
            exact categoricalCands_sides tk pr.minSamplesLeaf _ c
              (bestCand_mem _ c heq)
        refine ⟨c.lIdx, c.rIdx, hcands.1, hcands.2.1, ?_, ?_⟩
        · rw [← hs]
          exact hcands.2.2
        · rw [← hs]
      · exact hacc s hs

theorem distributeMissing_left (L R M : List ℕ) (hR : R ≠ [])
    (hle : R.length ≤ L.length) : distributeMissing L R M = (L ++ M, R) := by
  have hR0 : R.length ≠ 0 := fun h0 => hR (List.length_eq_zero.mp h0)
  unfold distributeMissing
  split
  · rename_i hM
    rw [List.length_eq_zero.mp hM, List.append_nil]
  · split
    · rfl
    · split
      · rename_i hguard
        rcases hguard with hlt | hL0
        · omega
        · omega
      · rfl

theorem distributeMissing_right (L R M : List ℕ) (hR : R ≠ [])
    (hlt : L.length < R.length) : distributeMissing L R M = (L, R ++ M) := by
  have hR0 : R.length ≠ 0 := fun h0 => hR (List.length_eq_zero.mp h0)
  unfold distributeMissing
  split
  · rename_i hM
    rw [List.length_eq_zero.mp hM, List.append_nil]
  · split
    · rename_i hguard
      rcases hguard with h1 | h2
      · omega
      · omega
    · split
      · rfl
      · rename_i hguard
        push_neg at hguard
        omega

/-- C2: whenever `_findBestSplit` returns a split, its final index lists
arise from nonempty left/right non-missing index lists `L`, `R` that
together are a permutation of the winning feature's non-missing sample
indices, by handing the feature's missing-valued samples to
`distributeMissing`; since `L` and `R` are never empty, the missing
samples go to the strictly larger side, and to the left side on ties
(the claim's one-side-empty clause is vacuous). -/
theorem claim_C2 {T P : Type} (tk : Task T P) (pr : Params)
    (X : List (List FeatVal)) (y : List T) (nF : ℕ) (sp : Split)
    (h : findBestSplit tk pr X y nF = some sp) :
    ∃ L R, L ≠ [] ∧ R ≠ []
      ∧ (L ++ R).Perm
          ((featureColumn X y sp.featureIndex).1.map (fun d => d.2.2))
      ∧ (sp.leftIndices, sp.rightIndices)
          = distributeMissing L R (featureColumn X y sp.featureIndex).2
      ∧ (∀ M, R.length ≤ L.length → distributeMissing L R M = (L ++ M, R))
      ∧ (∀ M, L.length < R.length → distributeMissing L R M = (L, R ++ M)) := by
  obtain ⟨L, R, hL, hR, hperm, heqs⟩ := findBestSplit_ok tk pr X y nF sp h
  exact ⟨L, R, hL, hR, hperm, heqs,
    fun M hle => distributeMissing_left L R M hR hle,
    fun M hlt => distributeMissing_right L R M hR hlt⟩

theorem evalFeatureColumnMiss :
    featureColumn [[some (JVal.num 1)], [some (JVal.num 2)], [none]]
        [JVal.str "A", JVal.str "B", JVal.str "B"] 0
      = ([(JVal.num 1, JVal.str "A", 0), (JVal.num 2, JVal.str "B", 1)], [2]) := by
  norm_num [featureColumn, List.enum, List.enumFrom, List.filterMap_cons,
    List.filter_cons]

theorem evalFindBestMiss :
    findBestSplit (classifierTask [JVal.str "A", JVal.str "B"])
        ⟨none, 2, 1, 0, some [FeatType.numerical], 0⟩
        [[some (JVal.num 1)], [some (JVal.num 2)], [none]]
        [JVal.str "A", JVal.str "B", JVal.str "B"] 1
      = some ⟨0, some (3 / 2), none, 1 / 2, [0, 2], [1]⟩ := by
  norm_num [findBestSplit, List.range_succ, evalFeatureColumnMiss, featTypeAt,
    evalNumCandsAB, bestCand, distributeMissing]
  simp

theorem claim_C2_witness :
    ∃ L R, L ≠ [] ∧ R ≠ []
      ∧ (L ++ R).Perm
          ((featureColumn [[some (JVal.num 1)], [some (JVal.num 2)], [none]]
              [JVal.str "A", JVal.str "B", JVal.str "B"]
              (Split.mk 0 (some (3 / 2)) none (1 / 2) [0, 2] [1]).featureIndex).1.map
            (fun d => d.2.2))
      ∧ ((Split.mk 0 (some (3 / 2)) none (1 / 2) [0, 2] [1]).leftIndices,
          (Split.mk 0 (some (3 / 2)) none (1 / 2) [0, 2] [1]).rightIndices)
          = distributeMissing L R
              (featureColumn [[some (JVal.num 1)], [some (JVal.num 2)], [none]]
                [JVal.str "A", JVal.str "B", JVal.str "B"]
                (Split.mk 0 (some (3 / 2)) none (1 / 2) [0, 2] [1]).featureIndex).2
      ∧ (∀ M, R.length ≤ L.length → distributeMissing L R M = (L ++ M, R))
      ∧ (∀ M, L.length < R.length → distributeMissing L R M = (L, R ++ M)) :=
  claim_C2 (classifierTask [JVal.str "A", JVal.str "B"])
    ⟨none, 2, 1, 0, some [FeatType.numerical], 0⟩
    [[some (JVal.num 1)], [some (JVal.num 2)], [none]]
    [JVal.str "A", JVal.str "B", JVal.str "B"] 1
    (Split.mk 0 (some (3 / 2)) none (1 / 2) [0, 2] [1]) evalFindBestMiss

/-! ### Termination of tree construction (C10) -/

theorem length_filterMap_add_filter {α β : Type} (g : α → Option β) (p : α → Bool)
    (hp : ∀ a, (g a).isSome = ! p a) :
    ∀ l : List α, (l.filterMap g).length + (l.filter p).length = l.length := by
  intro l
  induction l with
  | nil => rfl
  | cons a t ih =>
    rcases hg : g a with _ | b
    · have hpa : p a = true := by
        have := hp a
        rw [hg] at this
        simpa using this.symm
      simp only [List.filterMap_cons, List.filter_cons, hg, hpa, if_true,
        List.length_cons]
      omega
    · have hpa : p a = false := by
        have := hp a
        rw [hg] at this
        simpa using this.symm
      simp only [List.filterMap_cons, List.filter_cons, hg, hpa,
        Bool.false_eq_true, if_false, List.length_cons]
      omega

theorem featureColumn_length {T : Type} (X : List (List FeatVal)) (y : List T)
    (fd : ℕ) :
    (featureColumn X y fd).1.length + (featureColumn X y fd).2.length
      = min X.length y.length := by
  have hlen : ((X.zip y).enum).length = min X.length y.length := by
    rw [List.enum_length, List.length_zip]
  rw [show (featureColumn X y fd).2
      = (((X.zip y).enum).filter (fun r => (r.2.1.getD fd none).isNone)).map
          (fun r => r.1) from rfl, List.length_map]
  rw [show (featureColumn X y fd).1
      = ((X.zip y).enum).filterMap (fun r =>
          match (r.2.1.getD fd none) with
          | some v => some (v, r.2.2, r.1)
          | none => none) from rfl]
  rw [← hlen]
  apply length_filterMap_add_filter
  intro r
  rcases hr : r.2.1.getD fd none with _ | v
  · simp [hr]
  · simp [hr]

theorem distributeMissing_lengths (L R M : List ℕ) :
    (distributeMissing L R M).1.length + (distributeMissing L R M).2.length
      = L.length + R.length + M.length := by
  unfold distributeMissing
  split
  · rename_i hM
    simp only
    omega
  · split
    · simp only [List.length_append]
      omega
    · split
      · simp only [List.length_append]
        omega
      · simp only [List.length_append]
        omega

theorem distributeMissing_ge (L R M : List ℕ) :
    L.length ≤ (distributeMissing L R M).1.length
      ∧ R.length ≤ (distributeMissing L R M).2.length := by
  unfold distributeMissing
  split
  · simp
  · split
    · simp only [List.length_append]
      omega
    · split
      · simp only [List.length_append]
        omega
      · simp only [List.length_append]
        omega

theorem findBestSplit_sizes {T P : Type} (tk : Task T P) (pr : Params)
    (X : List (List FeatVal)) (y : List T) (nF : ℕ) (sp : Split)
    (h : findBestSplit tk pr X y nF = some sp) :
    1 ≤ sp.leftIndices.length ∧ 1 ≤ sp.rightIndices.length
      ∧ sp.leftIndices.length + sp.rightIndices.length
          = min X.length y.length := by
  obtain ⟨L, R, hL, hR, hperm, heqs⟩ := findBestSplit_ok tk pr X y nF sp h
  have hL1 : 1 ≤ L.length := List.length_pos.mpr hL
  have hR1 : 1 ≤ R.length := List.length_pos.mpr hR
  have h1 : sp.leftIndices = (distributeMissing L R
      (featureColumn X y sp.featureIndex).2).1 := congrArg Prod.fst heqs
  have h2 : sp.rightIndices = (distributeMissing L R
      (featureColumn X y sp.featureIndex).2).2 := congrArg Prod.snd heqs
  have hge := distributeMissing_ge L R (featureColumn X y sp.featureIndex).2
  have hsum := distributeMissing_lengths L R (featureColumn X y sp.featureIndex).2
  have hnm : L.length + R.length
      = ((featureColumn X y sp.featureIndex).1.map (fun d => d.2.2)).length := by
    rw [← hperm.length_eq, List.length_append]
  rw [List.length_map] at hnm
  have hcol := featureColumn_length X y sp.featureIndex
  refine ⟨?_, ?_, ?_⟩
  · rw [h1]; omega
  · rw [h2]; omega
  · rw [h1, h2]; omega

theorem buildTreeF_total {T P : Type} (tk : Task T P) (pr : Params) (nFeat : ℕ) :
    ∀ (fuel : ℕ) (X : List (List FeatVal)) (y : List T) (depth : ℕ) (acc : List ℚ),
      X.length < fuel →
      (buildTreeF tk pr nFeat fuel X y depth acc).isSome = true := by
  intro fuel
  induction fuel with
  | zero => intro X y depth acc hf; omega
  | succ f ih =>
    intro X y depth acc hf
    rw [buildTreeF]
    dsimp only
    split
    · rfl
    · split
      · rfl
      · rename_i sp heq
        rw [heq]
        split
        · rfl
        · split
          · rfl
          · rename_i hgain hleafguard
            have hsz := findBestSplit_sizes tk pr X y nFeat sp heq
            have hminle : min X.length y.length ≤ X.length :=
              Nat.min_le_left _ _
            have hXl : (sp.leftIndices.map
                (fun i => X.getD i [])).length < f := by
              rw [List.length_map]; omega
            have hXr : (sp.rightIndices.map
                (fun i => X.getD i [])).length < f := by
              rw [List.length_map]; omega
            have h1 := ih (sp.leftIndices.map (fun i => X.getD i []))
              (sp.leftIndices.map (fun i => y.getD i tk.dflt)) (depth + 1)
              (accumulateImportance acc (some sp) X.length) hXl
            obtain ⟨⟨lch, acc2⟩, he1⟩ := Option.isSome_iff_exists.mp h1
            rw [he1]
            dsimp only
            have h2 := ih (sp.rightIndices.map (fun i => X.getD i []))
              (sp.rightIndices.map (fun i => y.getD i tk.dflt)) (depth + 1)
              acc2 hXr
            obtain ⟨⟨rch, acc3⟩, he2⟩ := Option.isSome_iff_exists.mp h2
            rw [he2]
            rfl

/-- C10: tree construction terminates on every input.  Every split
returned by the search has a nonempty left and right side whose sizes sum
to the node's sample count, so both are strictly smaller; consequently
`_buildTree` with fuel `|X| + 1` (as used by `fit`) never exhausts its
fuel; and the recursion returns a leaf immediately when the depth cap is
reached, the sample count falls below `minSamplesSplit`, impurity is `0`,
the node is empty, or no admissible split exists. -/
theorem claim_C10 {T P : Type} (tk : Task T P) (pr : Params)
    (X : List (List FeatVal)) (y : List T) (hlen : X.length = y.length) :
    (∀ nF sp, findBestSplit tk pr X y nF = some sp →
        1 ≤ sp.leftIndices.length ∧ 1 ≤ sp.rightIndices.length
          ∧ sp.leftIndices.length + sp.rightIndices.length = X.length)
    ∧ (∀ nFeat fuel depth acc, X.length < fuel →
        (buildTreeF tk pr nFeat fuel X y depth acc).isSome = true)
    ∧ (∀ nFeat fuel depth acc,
        depthStop pr.maxDepth depth = true ∨ X.length < pr.minSamplesSplit
          ∨ tk.impurity y = 0 ∨ X.length = 0 →
        buildTreeF tk pr nFeat (fuel + 1) X y depth acc
          = some (Node.mk none none none (some (tk.leafValue y))
              (some (tk.impurity y)) none none X.length true
              (some (tk.leafValue y)), acc))
    ∧ (∀ nFeat fuel depth acc,
        ¬(depthStop pr.maxDepth depth = true ∨ X.length < pr.minSamplesSplit
          ∨ tk.impurity y = 0 ∨ X.length = 0) →
        findBestSplit tk pr X y nFeat = none →
        buildTreeF tk pr nFeat (fuel + 1) X y depth acc
          = some (Node.mk none none none (some (tk.leafValue y))
              (some (tk.impurity y)) none none X.length true
              (some (tk.leafValue y)), acc)) := by
  refine ⟨?_, ?_, ?_, ?_⟩
  · intro nF sp h
    have := findBestSplit_sizes tk pr X y nF sp h
    rw [hlen, min_self] at this
    rw [hlen]
    exact this
  · intro nFeat fuel depth acc hf
    exact buildTreeF_total tk pr nFeat fuel X y depth acc hf
  · intro nFeat fuel depth acc hstop
    rw [buildTreeF]
    dsimp only
    rw [if_pos hstop]
  · intro nFeat fuel depth acc hstop hbs
    rw [buildTreeF]
    dsimp only
    rw [if_neg hstop, hbs]
    rfl

theorem claim_C10_witness :
    (∀ nF sp, findBestSplit (classifierTask [JVal.str "A"])
        ⟨none, 2, 1, 0, some [FeatType.numerical], 0⟩
        [[some (JVal.num 1)]] [JVal.str "A"] nF = some sp →
        1 ≤ sp.leftIndices.length ∧ 1 ≤ sp.rightIndices.length
          ∧ sp.leftIndices.length + sp.rightIndices.length
              = ([[some (JVal.num 1)]] : List (List FeatVal)).length)
    ∧ (∀ nFeat fuel depth acc,
        ([[some (JVal.num 1)]] : List (List FeatVal)).length < fuel →
        (buildTreeF (classifierTask [JVal.str "A"])
            ⟨none, 2, 1, 0, some [FeatType.numerical], 0⟩ nFeat fuel
            [[some (JVal.num 1)]] [JVal.str "A"] depth acc).isSome = true)
    ∧ (∀ nFeat fuel depth acc,
        depthStop none depth = true
          ∨ ([[some (JVal.num 1)]] : List (List FeatVal)).length < 2
          ∨ (classifierTask [JVal.str "A"]).impurity [JVal.str "A"] = 0
          ∨ ([[some (JVal.num 1)]] : List (List FeatVal)).length = 0 →
        buildTreeF (classifierTask [JVal.str "A"])
            ⟨none, 2, 1, 0, some [FeatType.numerical], 0⟩ nFeat (fuel + 1)
            [[some (JVal.num 1)]] [JVal.str "A"] depth acc
          = some (Node.mk none none none
              (some ((classifierTask [JVal.str "A"]).leafValue [JVal.str "A"]))
              (some ((classifierTask [JVal.str "A"]).impurity [JVal.str "A"]))
              none none ([[some (JVal.num 1)]] : List (List FeatVal)).length true
              (some ((classifierTask [JVal.str "A"]).leafValue [JVal.str "A"])),
              acc))
    ∧ (∀ nFeat fuel depth acc,
        ¬(depthStop none depth = true
          ∨ ([[some (JVal.num 1)]] : List (List FeatVal)).length < 2
          ∨ (classifierTask [JVal.str "A"]).impurity [JVal.str "A"] = 0
          ∨ ([[some (JVal.num 1)]] : List (List FeatVal)).length = 0) →
        findBestSplit (classifierTask [JVal.str "A"])
            ⟨none, 2, 1, 0, some [FeatType.numerical], 0⟩
            [[some (JVal.num 1)]] [JVal.str "A"] nFeat = none →
        buildTreeF (classifierTask [JVal.str "A"])
            ⟨none, 2, 1, 0, some [FeatType.numerical], 0⟩ nFeat (fuel + 1)
            [[some (JVal.num 1)]] [JVal.str "A"] depth acc
          = some (Node.mk none none none
              (some ((classifierTask [JVal.str "A"]).leafValue [JVal.str "A"]))
              (some ((classifierTask [JVal.str "A"]).impurity [JVal.str "A"]))
              none none ([[some (JVal.num 1)]] : List (List FeatVal)).length true
              (some ((classifierTask [JVal.str "A"]).leafValue [JVal.str "A"])),
              acc)) :=
  claim_C10 (classifierTask [JVal.str "A"])
    ⟨none, 2, 1, 0, some [FeatType.numerical], 0⟩
    [[some (JVal.num 1)]] [JVal.str "A"] rfl

/-! ### Feature importances (C9) -/

theorem getFeatureImportances_dichotomy {P : Type} (fr : FitResult P) :
    (getFeatureImportances fr = List.replicate fr.nFeatures 0
      ∧ fr.importances.sum = 0)
    ∨ ((getFeatureImportances fr).sum = 1 ∧ fr.importances.sum ≠ 0) := by
  by_cases ht : fr.importances.sum = 0
  · left
    exact ⟨by rw [getFeatureImportances, if_pos ht], ht⟩
  · right
    refine ⟨?_, ht⟩
    rw [getFeatureImportances]
    rw [if_neg ht]
    have := sum_map_div_q fr.importances id fr.importances.sum
    simp only [List.map_id] at this
    rw [show (fun imp => imp / fr.importances.sum)
        = (fun imp => id imp / fr.importances.sum) from rfl, this]
    exact div_self ht

/-- C9 (amended): after any fit, `getFeatureImportances()` returns either
the all-zero vector — exactly when the raw accumulator sums to `0` — or a
vector summing to `1`.  The accumulator, however, is updated inside the
split search whenever the scanned winner has positive gain, even when the
caller then rejects that split, so "all-zero iff no split occurred" fails
(see the counterexample). -/
theorem claim_C9 {P : Type} (fr : FitResult P) :
    (getFeatureImportances fr = List.replicate fr.nFeatures 0
      ∧ fr.importances.sum = 0)
    ∨ ((getFeatureImportances fr).sum = 1 ∧ fr.importances.sum ≠ 0) :=
  getFeatureImportances_dichotomy fr

theorem evalFindBestABm (m a : ℚ) :
    findBestSplit (classifierTask [JVal.str "A", JVal.str "B"])
        ⟨none, 2, 1, m, some [FeatType.numerical], a⟩
        [[some (JVal.num 1)], [some (JVal.num 2)]]
        [JVal.str "A", JVal.str "B"] 1
      = some ⟨0, some (3 / 2), none, 1 / 2, [0], [1]⟩ := by
  norm_num [findBestSplit, List.range_succ, evalFeatureColumnAB, featTypeAt,
    evalNumCandsAB, bestCand, distributeMissing]
  simp

theorem evalBuildABmid :
    buildTreeF (classifierTask [JVal.str "A", JVal.str "B"])
        ⟨none, 2, 1, 10, some [FeatType.numerical], 0⟩ 1 3
        [[some (JVal.num 1)], [some (JVal.num 2)]]
        [JVal.str "A", JVal.str "B"] 0 [0]
      = some (exRootCPruned, [1 / 2]) := by
  norm_num [buildTreeF, evalFindBestABm, taskABimp, taskABlv, evalGiniAB,
    evalLvAB, accumulateImportance, addAt, depthStop, exRootCPruned]

theorem evalFitABmid :
    fitTree (classifierTask [JVal.str "A", JVal.str "B"])
        ⟨none, 2, 1, 10, none, 0⟩
        [[some (JVal.num 1)], [some (JVal.num 2)]]
        [JVal.str "A", JVal.str "B"]
      = some ⟨exRootCPruned, [1 / 2], 1, [FeatType.numerical]⟩ := by
  norm_num [fitTree, evalBuildABmid]

theorem claim_C9_counterexample :
    fitTree (classifierTask [JVal.str "A", JVal.str "B"])
        ⟨none, 2, 1, 10, none, 0⟩
        [[some (JVal.num 1)], [some (JVal.num 2)]]
        [JVal.str "A", JVal.str "B"]
      = some ⟨exRootCPruned, [1 / 2], 1, [FeatType.numerical]⟩
    ∧ exRootCPruned.isLeaf = true
    ∧ getFeatureImportances
        (⟨exRootCPruned, [1 / 2], 1, [FeatType.numerical]⟩ : FitResult ProbMap)
      = [1]
    ∧ ([1] : List ℚ) ≠ List.replicate 1 (0 : ℚ) := by
  refine ⟨evalFitABmid, rfl, ?_, by norm_num⟩
  norm_num [getFeatureImportances]

/-! ### Classification leaf payloads (C6) -/

theorem calculateLeafValue_keys (y : List JVal) (hy : y ≠ []) :
    (calculateLeafValue y).map (fun kv => kv.1)
      = dedupFirst (y.map JVal.key) := by
  have hn : y.length ≠ 0 := fun h => hy (List.length_eq_zero.mp h)
  rw [calculateLeafValue, if_neg hn, countsList_eq, List.map_map, List.map_map]
  have hcomp : (((fun kv : String × ℚ => kv.1)
        ∘ (fun kc : String × ℕ => (kc.1, (kc.2 : ℚ) / (y.length : ℚ))))
          ∘ (fun k => (k, (y.map JVal.key).count k))) = id := rfl
  rw [hcomp, List.map_id]

theorem calculateLeafValue_freq (y : List JVal) (hy : y ≠ []) :
    ∀ kv ∈ calculateLeafValue y,
      kv.2 = (((y.map JVal.key).count kv.1 : ℕ) : ℚ) / (y.length : ℚ)
        ∧ 0 < kv.2 := by
  have hn : y.length ≠ 0 := fun h => hy (List.length_eq_zero.mp h)
  intro kv hkv
  rw [calculateLeafValue, if_neg hn] at hkv
  obtain ⟨kc, hkc, hkveq⟩ := List.mem_map.mp hkv
  obtain ⟨hk1, hk2, hk3⟩ := mem_countsList hkc
  subst hkveq
  constructor
  · rw [hk2]
  · have hlenpos : (0 : ℚ) < (y.length : ℚ) := by
      have := List.length_pos.mpr hy
      exact_mod_cast this
    have hcpos : (0 : ℚ) < (kc.2 : ℚ) := by exact_mod_cast hk3
    exact div_pos hcpos hlenpos

theorem calculateLeafValue_sum (y : List JVal) (hy : y ≠ []) :
    ((calculateLeafValue y).map (fun kv => kv.2)).sum = 1 := by
  have hn : y.length ≠ 0 := fun h => hy (List.length_eq_zero.mp h)
  have hnq : ((y.length : ℕ) : ℚ) ≠ 0 := by exact_mod_cast hn
  rw [calculateLeafValue, if_neg hn, List.map_map]
  have hcomp : ((fun kv : String × ℚ => kv.2)
        ∘ (fun kc : String × ℕ => (kc.1, (kc.2 : ℚ) / (y.length : ℚ))))
      = fun kc : String × ℕ => (kc.2 : ℚ) / (y.length : ℚ) := rfl
  rw [hcomp, sum_map_div_q (countsList y) (fun kc => (kc.2 : ℚ)) (y.length : ℚ)]
  have hsum : ((countsList y).map (fun kc => ((kc.2 : ℕ) : ℚ))).sum
      = ((y.length : ℕ) : ℚ) := by
    rw [← countsList_sum y, Nat.cast_list_sum, List.map_map]
    rfl
  rw [hsum]
  exact div_self hnq

/-- C6 (amended): the payload of a classification leaf is the label-keyed
empirical frequency map of the samples that reached the leaf — its keys
are the distinct string-coerced labels **seen at the leaf** (in first-seen
order), not the unique labels of the whole training set — each value is
`count / n` and is positive, the values sum to `1` for a non-empty leaf,
and the payload of the zero-sample pathological leaf is the empty record
(summing to 0). -/
theorem claim_C6 (y : List JVal) (hy : y ≠ []) :
    calculateLeafValue [] = []
    ∧ (calculateLeafValue y).map (fun kv => kv.1) = dedupFirst (y.map JVal.key)
    ∧ (∀ kv ∈ calculateLeafValue y,
        kv.2 = (((y.map JVal.key).count kv.1 : ℕ) : ℚ) / (y.length : ℚ)
          ∧ 0 < kv.2)
    ∧ ((calculateLeafValue y).map (fun kv => kv.2)).sum = 1 :=
  ⟨rfl, calculateLeafValue_keys y hy, calculateLeafValue_freq y hy,
    calculateLeafValue_sum y hy⟩

theorem claim_C6_witness :
    calculateLeafValue [] = []
    ∧ (calculateLeafValue [JVal.str "A", JVal.str "B"]).map (fun kv => kv.1)
        = dedupFirst ([JVal.str "A", JVal.str "B"].map JVal.key)
    ∧ (∀ kv ∈ calculateLeafValue [JVal.str "A", JVal.str "B"],
        kv.2 = ((([JVal.str "A", JVal.str "B"].map JVal.key).count kv.1 : ℕ) : ℚ)
            / (([JVal.str "A", JVal.str "B"] : List JVal).length : ℚ)
          ∧ 0 < kv.2)
    ∧ ((calculateLeafValue [JVal.str "A", JVal.str "B"]).map
        (fun kv => kv.2)).sum = 1 :=
  claim_C6 [JVal.str "A", JVal.str "B"] (by simp)

theorem claim_C6_counterexample :
    fitTree (classifierTask [JVal.str "A", JVal.str "B"])
        ⟨none, 2, 1, 0, none, 0⟩
        [[some (JVal.num 1)], [some (JVal.num 2)]]
        [JVal.str "A", JVal.str "B"]
      = some ⟨exRootC, [1 / 2], 1, [FeatType.numerical]⟩
    ∧ exRootC.leftChild = some exLeafA
    ∧ exLeafA.isLeaf = true
    ∧ exLeafA.value = some [("A", (1 : ℚ))]
    ∧ ([("A", (1 : ℚ))].map (fun kv => kv.1))
        ≠ (dedupFirst ([JVal.str "A", JVal.str "B"].map JVal.key)) := by
  refine ⟨evalFitAB0, rfl, rfl, rfl, ?_⟩
  norm_num [dedupFirst, JVal.key]
  decide

/-! ### Random-forest probability records (C7) -/

theorem digitChar_decode (m : ℕ) (h : m < 10) :
    (Nat.digitChar m).toNat - 48 = m := by
  interval_cases m <;> rfl

theorem decodeFrom_cons (init : ℕ) (c : Char) (cs : List Char) :
    decodeFrom init (c :: cs) = decodeFrom (init * 10 + (c.toNat - 48)) cs := rfl

theorem decodeFrom_toDigitsCore :
    ∀ (fuel n : ℕ) (acc : List Char), n < fuel →
      decodeFrom 0 (Nat.toDigitsCore 10 fuel n acc) = decodeFrom n acc := by
  intro fuel
  induction fuel with
  | zero => intro n acc h; omega
  | succ f ih =>
    intro n acc h
    rw [Nat.toDigitsCore.eq_def]
    simp only
    split
    · rename_i hdiv
      rw [decodeFrom_cons, digitChar_decode (n % 10) (Nat.mod_lt n (by norm_num))]
      have : n % 10 = n := by omega
      rw [this]
      norm_num
    · rename_i hdiv
      have hlt : n / 10 < f := by omega
      rw [ih (n / 10) (Nat.digitChar (n % 10) :: acc) hlt, decodeFrom_cons,
        digitChar_decode (n % 10) (Nat.mod_lt n (by norm_num))]
      have : n / 10 * 10 + n % 10 = n := by omega
      rw [this]

theorem decodeFrom_toDigits (n : ℕ) :
    decodeFrom 0 (Nat.toDigits 10 n) = n := by
  rw [Nat.toDigits, decodeFrom_toDigitsCore (n + 1) n [] (Nat.lt_succ_self n)]
  rfl

theorem natToString_inj {m n : ℕ} (h : toString m = toString n) : m = n := by
  have hd : Nat.toDigits 10 m = Nat.toDigits 10 n := congrArg String.data h
  calc m = decodeFrom 0 (Nat.toDigits 10 m) := (decodeFrom_toDigits m).symm
    _ = decodeFrom 0 (Nat.toDigits 10 n) := by rw [hd]
    _ = n := decodeFrom_toDigits n

theorem natToString_ne {m n : ℕ} (h : m ≠ n) : toString m ≠ toString n :=
  fun he => h (natToString_inj he)

theorem recordAdd_fresh (k : String) (v : ℚ) :
    ∀ (rec : List (String × ℚ)), (∀ kv ∈ rec, kv.1 ≠ k) →
      recordAdd rec k v = rec ++ [(k, v)] := by
  intro rec
  induction rec with
  | nil => intro _; rfl
  | cons kv t ih =>
    intro hfresh
    rw [show recordAdd (kv :: t) k v
        = if kv.1 = k then (kv.1, kv.2 + v) :: t
          else (kv.1, kv.2) :: recordAdd t k v from rfl]
    rw [if_neg (hfresh kv (List.mem_cons_self kv t))]
    rw [ih (fun kv2 h2 => hfresh kv2 (List.mem_cons_of_mem kv h2))]
    rfl

theorem recordAdd_update (k : String) (v w : ℚ) (rec2 : List (String × ℚ)) :
    ∀ (rec1 : List (String × ℚ)), (∀ kv ∈ rec1, kv.1 ≠ k) →
      recordAdd (rec1 ++ (k, w) :: rec2) k v = rec1 ++ (k, w + v) :: rec2 := by
  intro rec1
  induction rec1 with
  | nil =>
    intro _
    rw [List.nil_append, show recordAdd ((k, w) :: rec2) k v
        = if k = k then (k, w + v) :: rec2
          else (k, w) :: recordAdd rec2 k v from rfl, if_pos rfl, List.nil_append]
  | cons kv t ih =>
    intro hfresh
    rw [List.cons_append, show recordAdd (kv :: (t ++ (k, w) :: rec2)) k v
        = if kv.1 = k then (kv.1, kv.2 + v) :: (t ++ (k, w) :: rec2)
          else (kv.1, kv.2) :: recordAdd (t ++ (k, w) :: rec2) k v from rfl]
    rw [if_neg (hfresh kv (List.mem_cons_self kv t))]
    rw [ih (fun kv2 h2 => hfresh kv2 (List.mem_cons_of_mem kv h2))]
    rfl

theorem addRow_fresh :
    ∀ (p : List ℚ) (i : ℕ) (rec1 : List (String × ℚ)),
      (∀ kv ∈ rec1, ∀ j : ℕ, i ≤ j → kv.1 ≠ toString j) →
      (List.enumFrom i p).foldl
          (fun rec jp => recordAdd rec (toString jp.1) jp.2) rec1
        = rec1 ++ (List.enumFrom i p).map (fun jp => (toString jp.1, jp.2)) := by
  intro p
  induction p with
  | nil => intro i rec1 _; simp [List.enumFrom]
  | cons v t ih =>
    intro i rec1 hfresh
    rw [show List.enumFrom i (v :: t) = (i, v) :: List.enumFrom (i + 1) t from rfl]
    rw [List.foldl_cons]
    rw [show recordAdd rec1 (toString (i, v).1) (i, v).2
        = recordAdd rec1 (toString i) v from rfl]
    rw [recordAdd_fresh (toString i) v rec1
      (fun kv h => hfresh kv h i (le_refl i))]
    rw [ih (i + 1) (rec1 ++ [(toString i, v)]) ?_]
    · rw [List.map_cons, List.append_assoc]
      rfl
    · intro kv hkv j hj
      rcases List.mem_append.mp hkv with h1 | h2
      · exact hfresh kv h1 j (by omega)
      · rw [List.mem_singleton.mp h2]
        exact natToString_ne (by omega)

theorem addRow_update :
    ∀ (p : List ℚ) (i : ℕ) (rec1 : List (String × ℚ)) (g : ℕ × ℚ → ℚ),
      (∀ kv ∈ rec1, ∀ j : ℕ, i ≤ j → kv.1 ≠ toString j) →
      (List.enumFrom i p).foldl
          (fun rec jp => recordAdd rec (toString jp.1) jp.2)
          (rec1 ++ (List.enumFrom i p).map (fun jp => (toString jp.1, g jp)))
        = rec1 ++ (List.enumFrom i p).map
            (fun jp => (toString jp.1, g jp + jp.2)) := by
  intro p
  induction p with
  | nil => intro i rec1 g _; simp [List.enumFrom]
  | cons v t ih =>
    intro i rec1 g hfresh
    rw [show List.enumFrom i (v :: t) = (i, v) :: List.enumFrom (i + 1) t from rfl]
    rw [List.map_cons, List.foldl_cons]
    rw [show recordAdd (rec1 ++ (toString (i, v).1, g (i, v))
          :: (List.enumFrom (i + 1) t).map (fun jp => (toString jp.1, g jp)))
          (toString (i, v).1) (i, v).2
        = recordAdd (rec1 ++ (toString i, g (i, v))
          :: (List.enumFrom (i + 1) t).map (fun jp => (toString jp.1, g jp)))
          (toString i) v from rfl]
    rw [recordAdd_update (toString i) v (g (i, v)) _ rec1
      (fun kv h => hfresh kv h i (le_refl i))]
    rw [show rec1 ++ (toString i, g (i, v) + v)
          :: (List.enumFrom (i + 1) t).map (fun jp => (toString jp.1, g jp))
        = (rec1 ++ [(toString i, g (i, v) + v)])
          ++ (List.enumFrom (i + 1) t).map (fun jp => (toString jp.1, g jp)) by
      rw [List.append_assoc]; rfl]
    rw [ih (i + 1) (rec1 ++ [(toString i, g (i, v) + v)]) g ?_]
    · rw [List.map_cons, List.append_assoc]
      rfl
    · intro kv hkv j hj
      rcases List.mem_append.mp hkv with h1 | h2
      · exact hfresh kv h1 j (by omega)
      · rw [List.mem_singleton.mp h2]
        exact natToString_ne (by omega)

theorem addRow_empty (p : List ℚ) :
    p.enum.foldl (fun rec jp => recordAdd rec (toString jp.1) jp.2) []
      = p.enum.map (fun jp => (toString jp.1, (1 : ℚ) * jp.2)) := by
  rw [show p.enum = List.enumFrom 0 p from rfl,
    addRow_fresh p 0 [] (by intro kv h; cases h), List.nil_append]
  refine List.map_congr_left ?_
  intro jp _
  rw [one_mul]

theorem addRow_clean (p : List ℚ) (c : ℚ) :
    p.enum.foldl (fun rec jp => recordAdd rec (toString jp.1) jp.2)
        (p.enum.map (fun jp => (toString jp.1, c * jp.2)))
      = p.enum.map (fun jp => (toString jp.1, (c + 1) * jp.2)) := by
  have h := addRow_update p 0 [] (fun jp => c * jp.2) (by intro kv h; cases h)
  rw [List.nil_append, List.nil_append] at h
  rw [show p.enum = List.enumFrom 0 p from rfl, h]
  refine List.map_congr_left ?_
  intro jp _
  have : c * jp.2 + jp.2 = (c + 1) * jp.2 := by ring
  rw [this]

theorem rfAccumulate_map (f g : List ℚ → List (String × ℚ))
    (hrow : ∀ p : List ℚ,
      p.enum.foldl (fun rec jp => recordAdd rec (toString jp.1) jp.2) (f p)
        = g p) :
    ∀ P : List (List ℚ), rfAccumulate (P.map f) P = P.map g := by
  intro P
  induction P with
  | nil => rfl
  | cons p t ih =>
    rw [List.map_cons, List.map_cons,
      show rfAccumulate (f p :: t.map f) (p :: t)
        = (p.enum.foldl (fun rec jp => recordAdd rec (toString jp.1) jp.2) (f p))
          :: rfAccumulate (t.map f) t from rfl,
      hrow p, ih]

theorem fold_rfAccumulate_clean (P : List (List ℚ)) :
    ∀ (k : ℕ) (c : ℚ),
      List.foldl rfAccumulate
          (P.map (fun p => p.enum.map (fun jp => (toString jp.1, c * jp.2))))
          (List.replicate k P)
        = P.map (fun p => p.enum.map
            (fun jp => (toString jp.1, (c + (k : ℚ)) * jp.2))) := by
  intro k
  induction k with
  | zero =>
    intro c
    rw [List.replicate, List.foldl_nil]
    norm_num
  | succ k ih =>
    intro c
    rw [show List.replicate (k + 1) P = P :: List.replicate k P from rfl,
      List.foldl_cons,
      rfAccumulate_map
        (fun p => p.enum.map (fun jp => (toString jp.1, c * jp.2)))
        (fun p => p.enum.map (fun jp => (toString jp.1, (c + 1) * jp.2)))
        (fun p => addRow_clean p c) P,
      ih (c + 1)]
    have : c + 1 + (k : ℚ) = c + ((k : ℕ) + 1 : ℕ) := by push_cast; ring
    rw [this]

theorem mapM_some_length {α β : Type} (f : α → Option β) :
    ∀ (l : List α) (r : List β), l.mapM f = some r → r.length = l.length := by
  intro l
  induction l with
  | nil =>
    intro r h
    simp only [List.mapM_nil, Option.pure_def, Option.some.injEq] at h
    rw [← h]
    rfl
  | cons a t ih =>
    intro r h
    simp only [List.mapM_cons, Option.pure_def, Option.bind_eq_bind,
      Option.bind_eq_some, Option.some.injEq] at h
    obtain ⟨b, hb, bs, hbs, hr⟩ := h
    rw [← hr, List.length_cons, ih bs hbs, List.length_cons]

theorem mapM_replicate {α β : Type} (f : α → Option β) (a : α) (b : β)
    (hab : f a = some b) :
    ∀ k : ℕ, (List.replicate k a).mapM f = some (List.replicate k b) := by
  intro k
  induction k with
  | zero => rfl
  | succ k ih =>
    rw [show List.replicate (k + 1) a = a :: List.replicate k a from rfl,
      show List.replicate (k + 1) b = b :: List.replicate k b from rfl]
    simp only [List.mapM_cons, hab, ih, Option.pure_def, Option.bind_eq_bind,
      Option.some_bind]

theorem predictProba_length (m : ClassifierModel) (X : List (List FeatVal))
    (P : List (List ℚ)) (h : m.predictProba X = some P) :
    P.length = X.length := by
  rw [ClassifierModel.predictProba] at h
  split at h
  · cases h
  · split at h
    · cases h
    · simp only [Option.pure_def, Option.bind_eq_bind, Option.bind_eq_some,
        Option.some.injEq] at h
      obtain ⟨probas, hpro, hP⟩ := h
      rw [← hP, List.length_map]
      exact mapM_some_length _ X probas hpro

theorem rfPredictProba_replicate (m : ClassifierModel) (nE : ℕ) (hnE : nE ≠ 0)
    (X : List (List FeatVal)) (P : List (List ℚ))
    (hP : m.predictProba X = some P) :
    rfPredictProba ⟨List.replicate nE m, nE⟩ X
      = some (P.map (fun p => p.enum.map (fun jp => (toString jp.1, jp.2)))) := by
  have hlen : P.length = X.length := predictProba_length m X P hP
  rw [rfPredictProba]
  rw [if_neg (by rw [List.length_replicate]; exact hnE)]
  simp only [mapM_replicate (fun tr => tr.predictProba X) m P hP nE,
    Option.pure_def, Option.bind_eq_bind, Option.some_bind, Option.some.injEq]
  have hinit : X.map (fun _ => ([] : List (String × ℚ)))
      = P.map (fun _ => ([] : List (String × ℚ))) := by
    rw [List.map_const', List.map_const', hlen]
  rw [hinit]
  obtain ⟨k, rfl⟩ : ∃ k, nE = k + 1 := ⟨nE - 1, by omega⟩
  rw [show List.replicate (k + 1) P = P :: List.replicate k P from rfl,
    List.foldl_cons,
    rfAccumulate_map (fun _ => [])
      (fun p => p.enum.map (fun jp => (toString jp.1, (1 : ℚ) * jp.2)))
      addRow_empty P,
    fold_rfAccumulate_clean P k 1, List.map_map]
  refine List.map_congr_left ?_
  intro p _
  simp only [Function.comp_apply, List.map_map]
  refine List.map_congr_left ?_
  intro jp _
  simp only [Function.comp_apply]
  have hne : ((k : ℚ) + 1) ≠ 0 := by
    have : (0 : ℚ) ≤ (k : ℚ) := Nat.cast_nonneg k
    intro hc
    nlinarith
  have : (1 + (k : ℚ)) * jp.2 / ((k + 1 : ℕ) : ℚ) = jp.2 := by
    push_cast
    field_simp
    ring
  rw [this]

/-- C7 (amended): for every forest fitted by `rfFit` (the deterministic
`bootstrap: false` configuration) all `nEstimators` trees are the same
fitted classifier, and `predictProba` returns for each sample a record
whose keys are the **stringified indices** `"0", "1", …` into the tree's
sorted unique-class list — `Object.entries` is applied to the tree's
probability *array* — not the class labels themselves; the value at index
`j` is the tree's probability for class `j` (absent classes already read
as `0` inside the tree), which equals the arithmetic mean over the `n`
identical trees after the division by `nEstimators`. -/
theorem claim_C7 (pr : Params) (nE : ℕ) (hnE : nE ≠ 0)
    (X0 : List (List FeatVal)) (y : List JVal) (F : ForestModel)
    (hF : rfFit pr nE X0 y = some F) :
    ∃ m fr, fitClassifier pr X0 y = some (m, fr)
      ∧ F.trees = List.replicate nE m ∧ F.nEstimators = nE
      ∧ ∀ X P, m.predictProba X = some P →
          rfPredictProba F X
            = some (P.map (fun p =>
                p.enum.map (fun jp => (toString jp.1, jp.2)))) := by
  rw [rfFit] at hF
  split at hF
  · cases hF
  · rename_i mp heq
    simp only [Option.some.injEq] at hF
    refine ⟨mp.1, mp.2, by rw [heq], ?_, ?_, ?_⟩
    · rw [← hF]
    · rw [← hF]
    · intro X P hP
      rw [← hF]
      exact rfPredictProba_replicate mp.1 nE hnE X P hP

theorem evalFitClassifierAB :
    fitClassifier ⟨none, 2, 1, 0, none, 0⟩
        [[some (JVal.num 1)], [some (JVal.num 2)]]
        [JVal.str "A", JVal.str "B"]
      = some (exClassifierFit,
          ⟨exRootC, [1 / 2], 1, [FeatType.numerical]⟩) := by
  norm_num [fitClassifier, evalSortClassesAB, evalFitAB0, exClassifierFit]

theorem evalRfFitAB :
    rfFit ⟨none, 2, 1, 0, none, 0⟩ 1
        [[some (JVal.num 1)], [some (JVal.num 2)]]
        [JVal.str "A", JVal.str "B"]
      = some exForest := by
  norm_num [rfFit, evalFitClassifierAB, exForest, List.replicate]

theorem evalPredictSampleN1 :
    predictSample [some (JVal.num 1)] exRootC = some [("A", (1 : ℚ))] := by
  norm_num [predictSample, exRootC, exLeafA, toNumber]

theorem evalTreeProbaN1 :
    exClassifierFit.predictProba [[some (JVal.num 1)]]
      = some [[(1 : ℚ), 0]] := by
  norm_num [ClassifierModel.predictProba, exClassifierFit, List.mapM_cons,
    List.mapM.loop, evalPredictSampleN1, lookupD, JVal.key, List.lookup,
    (show (("A" : String) == "A") = true from rfl),
    (show (("B" : String) == "A") = false from rfl),
    (show (("A" : String) == "B") = false from rfl)]

theorem evalRfProbaN1 :
    rfPredictProba exForest [[some (JVal.num 1)]]
      = some [[(("0" : String), (1 : ℚ)), ("1", 0)]] := by
  have hrep : exForest = ⟨List.replicate 1 exClassifierFit, 1⟩ := rfl
  rw [hrep, rfPredictProba_replicate exClassifierFit 1 (by norm_num)
    [[some (JVal.num 1)]] [[(1 : ℚ), 0]] evalTreeProbaN1]
  norm_num [List.enum, List.enumFrom,
    (show toString (0 : ℕ) = "0" from rfl),
    (show toString (1 : ℕ) = "1" from rfl)]

theorem claim_C7_witness :
    ∃ m fr, fitClassifier ⟨none, 2, 1, 0, none, 0⟩
        [[some (JVal.num 1)], [some (JVal.num 2)]]
        [JVal.str "A", JVal.str "B"]
      = some (m, fr)
      ∧ exForest.trees = List.replicate 1 m ∧ exForest.nEstimators = 1
      ∧ ∀ X P, m.predictProba X = some P →
          rfPredictProba exForest X
            = some (P.map (fun p =>
                p.enum.map (fun jp => (toString jp.1, jp.2)))) :=
  claim_C7 ⟨none, 2, 1, 0, none, 0⟩ 1 (by norm_num)
    [[some (JVal.num 1)], [some (JVal.num 2)]]
    [JVal.str "A", JVal.str "B"] exForest evalRfFitAB

theorem claim_C7_counterexample :
    rfFit ⟨none, 2, 1, 0, none, 0⟩ 1
        [[some (JVal.num 1)], [some (JVal.num 2)]]
        [JVal.str "A", JVal.str "B"]
      = some exForest
    ∧ rfPredictProba exForest [[some (JVal.num 1)]]
        = some [[(("0" : String), (1 : ℚ)), ("1", 0)]]
    ∧ treeClassProb exClassifierFit (JVal.str "A") [some (JVal.num 1)]
        = some 1
    ∧ List.lookup "A" [(("0" : String), (1 : ℚ)), ("1", 0)] = none
    ∧ List.lookup "B" [(("0" : String), (1 : ℚ)), ("1", 0)] = none := by
  refine ⟨evalRfFitAB, evalRfProbaN1, ?_, rfl, rfl⟩
  norm_num [treeClassProb, exClassifierFit, evalPredictSampleN1, lookupD,
    JVal.key, List.lookup,
    (show (("A" : String) == "A") = true from rfl)]

end DTree
